import Mathlib

/-!
# grouperror: a shallow embedding of `grouperror.go`

The Go package builds one error out of several (`Join`, `Prefix`), flattens nested
groups (`Collection`) and renders a group as one line per flattened error.

## Data model

A Go `error` is an interface value: `nil` or a pointer to a concrete error. The embedding
uses `Option Err`, where `Err` lists the concrete error types that occur:

* `errorString`: `*errors.errorString`, what `errors.New` returns;
* `wrapError`:   `*fmt.wrapError` that wraps a non-nil error, what `fmt.Errorf` returns for
  one `%w` with an error operand;
* `wrapErrorNil`: `*fmt.wrapError` whose wrapped error is nil, what `fmt.Errorf` returns for one
  `%w` with a nil operand;
* `groupError`:  `*groupError` of this package;
* `custom`:      an error type of another package that has the methods `Error() string` and
  `Collection() []error` and no other method that the code looks for.

## Standard library

`fmt.Errorf`, `errors.Is`, `errors.As` and `strings.Join` belong to the Go standard library,
not to this package. They are modelled after their documented behaviour (Go 1.20 and later,
where `errors.Is` and `errors.As` also follow `Unwrap() []error`). The assertions that the
package `assert` calls belong to testify and are modelled in the same way.
-/

namespace grouperror

/-- Concrete (non-nil) error values.

`errorString.addr` is the address of the value when the caller holds it (`some a`); it is
`none` for a value whose address no target of `errors.Is` has. -/
inductive Err where
  | errorString (addr : Option Nat) (s : String)
  | wrapError (msg : String) (err : Err)
  | wrapErrorNil (msg : String)
  | groupError (pfx : String) (errors : List (Option Err))
  | custom (msg : String) (collection : List (Option Err))

/-- Go's interface type `error`: `none` is `nil`. -/
abbrev error := Option Err

/-- What `%w` prints for a nil operand (`fmt` reports a bad verb). -/
def badVerbW : String := "%!w(<nil>)"

/-! ## Messages

`(*groupError).Error` calls `g.Collection()` and then `Error()` on every element of the result.
Lean's structural recursion cannot call a function on a computed list, so the loop is written
over the members of the group: `groupError.lines pfx errors` is the list `s` that the method
builds. `groupError.Error_eq` below proves the equation of the source,
`g.Error() = strings.Join([x.Error() for x in g.Collection()], "\n")`. -/

mutual
/-- The method `Error() string` of each concrete type. -/
def Err.Error : Err → String
  | .errorString _ s => s
  | .wrapError msg _ => msg
  | .wrapErrorNil msg => msg
  | .custom msg _ => msg
  | .groupError pfx errors => "\n".intercalate (groupError.lines pfx errors)
/-- The slice `s` of `(*groupError).Error`: the messages of the elements of `g.Collection()`. -/
def groupError.lines (pfx : String) : List (Option Err) → List String
  | [] => []
  | err :: rest => groupError.line pfx err ++ groupError.lines pfx rest
/-- The messages that one member contributes to `g.Collection()`. -/
def groupError.line (pfx : String) : Option Err → List String
  | none => [pfx ++ badVerbW]
  | some (.groupError q fs) => (groupError.lines q fs).map (fun m => pfx ++ m)
  | some (.custom _ c) => groupError.rawLines pfx c
  | some (.errorString _ s) => [pfx ++ s]
  | some (.wrapError msg _) => [pfx ++ msg]
  | some (.wrapErrorNil msg) => [pfx ++ msg]
/-- The messages of `fmt.Errorf("%s%w", pfx, x)` for the elements `x` of a third-party
collection. -/
def groupError.rawLines (pfx : String) : List (Option Err) → List String
  | [] => []
  | none :: rest => (pfx ++ badVerbW) :: groupError.rawLines pfx rest
  | some e :: rest => (pfx ++ Err.Error e) :: groupError.rawLines pfx rest
end

/-- The call `err.Error()` on an interface value; `none` is the nil-pointer failure. -/
def error.Error : error → Option String
  | none => none
  | some e => some e.Error

/-- The loop `for _, err := range c { s = append(s, err.Error()) }`. -/
def messages : List error → Option (List String)
  | [] => some []
  | x :: rest =>
    match error.Error x, messages rest with
    | some m, some ms => some (m :: ms)
    | _, _ => none

/-- The call `fmt.Errorf("%s%w", pfx, x)`.

`%s` prints `pfx`. For a non-nil `x`, `%w` prints `x.Error()` and the result is a `*fmt.wrapError`
that unwraps to `x`. For a nil `x`, `%w` prints `%!w(<nil>)` and the result is a
`*fmt.wrapError` that unwraps to nil. The result is never nil. -/
def Errorf (pfx : String) : error → Err
  | none => .wrapErrorNil (pfx ++ badVerbW)
  | some x => .wrapError (pfx ++ x.Error) x

/-! ## The method `Collection` -/

mutual
/-- The type assertion `err.(interface{ Collection() []error })` followed by the call
`group.Collection()`: `none` when the assertion fails. -/
def Err.assertCollection : Err → Option (List error)
  | .groupError pfx errors => some (groupError.Collection pfx errors)
  | .custom _ c => some c
  | .errorString _ _ => none
  | .wrapError _ _ => none
  | .wrapErrorNil _ => none
/-- The method `(*groupError).Collection`: the loop over `g.errors`. -/
def groupError.Collection (pfx : String) : List (Option Err) → List error
  | [] => []
  | err :: rest => groupError.collectionStep pfx err ++ groupError.Collection pfx rest
/-- The body of the loop of `(*groupError).Collection` for one member. -/
def groupError.collectionStep (pfx : String) : Option Err → List error
  | none => [some (Errorf pfx none)]
  | some e =>
    match Err.assertCollection e with
    | some c => c.map (fun x => some (Errorf pfx x))
    | none => [some (Errorf pfx (some e))]
end

/-! ## The function `Collection`

For a `*groupError` the source calls itself on every element of `g.Collection()`. Those elements
are results of `fmt.Errorf`, so each call returns the element itself; the embedding returns
`g.Collection()` at once and `Collection_eq` proves the equation of the source. -/

mutual
/-- The function `Collection(err error) []error`: nil gives the nil slice. -/
def Collection : Option Err → List error
  | none => []
  | some e => Collection.nonNil e
/-- The function `Collection` after the nil check. -/
def Collection.nonNil : Err → List error
  | .groupError pfx errors => groupError.Collection pfx errors
  | .custom _ c => CollectionAll c
  | .errorString a s => [some (.errorString a s)]
  | .wrapError m e => [some (.wrapError m e)]
  | .wrapErrorNil m => [some (.wrapErrorNil m)]
/-- The loop `for _, x := range collection { errs = append(errs, Collection(x)...) }`. -/
def CollectionAll : List (Option Err) → List error
  | [] => []
  | x :: rest => Collection x ++ CollectionAll rest
end

/-! ## The builders -/

/-- The first loop of `Prefix`: the number of non-nil errors. -/
def countNonNil : List error → Nat
  | [] => 0
  | none :: rest => countNonNil rest
  | some _ :: rest => countNonNil rest + 1

/-- The second loop of `Prefix`: the non-nil errors, in order. -/
def filterNonNil : List error → List error
  | [] => []
  | none :: rest => filterNonNil rest
  | some e :: rest => some e :: filterNonNil rest

/-- The function `Prefix(prefix string, errs ...error) error`. -/
def Prefix (pfx : String) (errs : List error) : error :=
  if countNonNil errs = 0 then none
  else some (.groupError pfx (filterNonNil errs))

/-- The function `Join(errs ...error) error`. -/
def Join (errs : List error) : error :=
  Prefix "" errs

/-! ## Identity matching

`errors.Is(err, target)` of the standard library, for a target that is a plain error held by
the caller: a non-nil `*errors.errorString`, given by its address. Comparing `err == target`
is then true exactly when `err` is the `*errors.errorString` at that address; a value of any
other type differs from the target.

The loop of `errors.is` on a `*groupError` first calls the method `Is`, then ranges over
`g.Unwrap()`, which is `g.Collection()`. As for `Error`, the second loop is written over the
members (`groupError.unwrapIs`), and `groupError.unwrapIs_eq` proves the equation of the
standard library. -/

mutual
/-- The function `errors.is` (the loop behind `errors.Is`) for a plain target. -/
def errors.is : Err → Nat → Bool
  | .errorString addr _, target => addr == some target
  | .wrapError _ err, target => errors.is err target
  | .wrapErrorNil _, _ => false
  | .custom _ _, _ => false
  | .groupError _ errors, target =>
    groupError.Is errors target || groupError.unwrapIs errors target
/-- The function `errors.Is(err, target)` for a plain, non-nil target: a nil `err` is not
the target. -/
def errors.Is : Option Err → Nat → Bool
  | none, _ => false
  | some e, target => errors.is e target
/-- The method `(*groupError).Is`: the loop over `g.errors`. -/
def groupError.Is : List (Option Err) → Nat → Bool
  | [], _ => false
  | err :: rest, target => errors.Is err target || groupError.Is rest target
/-- The loop of `errors.is` over `g.Unwrap()`, member by member. -/
def groupError.unwrapIs : List (Option Err) → Nat → Bool
  | [], _ => false
  | err :: rest, target => groupError.unwrapIsStep err target || groupError.unwrapIs rest target
/-- The elements of `g.Unwrap()` that come from one member. -/
def groupError.unwrapIsStep : Option Err → Nat → Bool
  | none, _ => false
  | some (.groupError _ fs), target => groupError.unwrapIs fs target
  | some (.custom _ c), target => groupError.Is c target
  | some (.errorString addr _), target => addr == some target
  | some (.wrapError _ err), target => errors.is err target
  | some (.wrapErrorNil _), _ => false
end

/-! ## Trees of leaves and groups -/

mutual
/-- The errors built only from leaf errors (errors without the method `Collection`) and groups
made by `Prefix` or `Join`: a group made by `Prefix` has at least one member and no nil member.
`Prefix_built` and `built_eq_Prefix` relate the predicate to `Prefix`. -/
def Err.built : Err → Bool
  | .errorString _ _ => true
  | .wrapError _ _ => true
  | .wrapErrorNil _ => true
  | .custom _ _ => false
  | .groupError _ errors => !errors.isEmpty && builtAll errors
/-- Every member is non-nil and built. -/
def builtAll : List (Option Err) → Bool
  | [] => true
  | none :: _ => false
  | some e :: rest => Err.built e && builtAll rest
end

/-- A nil error or a built one: what may be passed to `Prefix` when building a tree. -/
def error.built : error → Bool
  | none => true
  | some e => e.built

mutual
/-- The reference flattening of the specification: `flat(leaf) = [message of leaf]` and
`flat(group with prefix p and members m1..mn)` is the concatenation, in member order, of
`flat(mi)` with `p` put before every message. -/
def Err.flat : Err → List String
  | .errorString _ s => [s]
  | .wrapError msg _ => [msg]
  | .wrapErrorNil msg => [msg]
  | .custom _ _ => []
  | .groupError pfx errors => (flatAll errors).map (fun m => pfx ++ m)
/-- The concatenation of the reference flattening of the members. -/
def flatAll : List (Option Err) → List String
  | [] => []
  | none :: rest => flatAll rest
  | some e :: rest => Err.flat e ++ flatAll rest
end

mutual
/-- The leaves of a tree in depth-first member order. -/
def Err.leaves : Err → List Err
  | .errorString a s => [.errorString a s]
  | .wrapError msg e => [.wrapError msg e]
  | .wrapErrorNil msg => [.wrapErrorNil msg]
  | .custom _ _ => []
  | .groupError _ errors => leavesAll errors
/-- The leaves of the members, in order. -/
def leavesAll : List (Option Err) → List Err
  | [] => []
  | none :: rest => leavesAll rest
  | some e :: rest => Err.leaves e ++ leavesAll rest
end

/-- The tree `Prefix("my group: ", Prefix("some errors: ", io.EOF, io.ErrNoProgress),
io.ErrUnexpectedEOF)`, with the three plain errors at the addresses 1, 2 and 3. -/
def unwrapExample : Err :=
  .groupError "my group: " [
    some (.groupError "some errors: " [some (.errorString (some 1) "EOF"),
      some (.errorString (some 2) "multiple Read calls return no data or error")]),
    some (.errorString (some 3) "unexpected EOF")]

/-- The tree `Join(l1, w)` for the plain error `l1` at the address 1 and the wrapper
`w = fmt.Errorf("x: %w", l1)`. -/
def wrapperExample : Err :=
  .groupError "" [some (.errorString (some 1) "EOF"),
    some (.wrapError "x: EOF" (.errorString (some 1) "EOF"))]

/-- The errors `Prefix(p1, Prefix(p2, ... Prefix(pn, x)))`. -/
def nest : List String → error → error
  | [], x => x
  | p :: ps, x => Prefix p [nest ps x]

/-- An element is a leaf: non-nil and without the method `Collection`. -/
def isLeaf (y : error) : Prop :=
  ∃ e, y = some e ∧ e.assertCollection = none

mutual
/-- The trees over plain leaf errors: every leaf is a value of `errors.New` that the caller
holds, every group is made by `Prefix` or `Join`. -/
def Err.plain : Err → Bool
  | .errorString (some _) _ => true
  | .errorString none _ => false
  | .wrapError _ _ => false
  | .wrapErrorNil _ => false
  | .custom _ _ => false
  | .groupError _ errors => !errors.isEmpty && plainAll errors
/-- Every member is non-nil and a tree over plain leaf errors. -/
def plainAll : List (Option Err) → Bool
  | [] => true
  | none :: _ => false
  | some e :: rest => Err.plain e && plainAll rest
end

/-- The tree of `Test_groupError_Unwrap` without the path error: `Prefix("errors: ", t)` for
`t = Prefix("my group: ", Prefix("some errors: ", io.EOF, io.ErrNoProgress),
io.ErrUnexpectedEOF)`. -/
def unwrapTest : Err :=
  .groupError "errors: " [some unwrapExample]

/-- An element of the flattened sequence and a leaf match the same plain targets. -/
def sameMatches (el : error) (leaf : Err) : Prop :=
  ∀ target : Nat, errors.Is el target = errors.is leaf target

mutual
/-- The errors from which `(*groupError).Collection` derives at least one element: a leaf, a
third-party group whose method `Collection` returns at least one element, and a group of this
package with at least one member that is nil or is such an error. -/
def Err.contributes : Err → Bool
  | .errorString _ _ => true
  | .wrapError _ _ => true
  | .wrapErrorNil _ => true
  | .custom _ c => !c.isEmpty
  | .groupError _ errors => contributesAny errors
/-- Some member is nil or contributes. -/
def contributesAny : List (Option Err) → Bool
  | [] => false
  | none :: _ => true
  | some e :: rest => Err.contributes e || contributesAny rest
end

/-! ## The package `assert`

`EqualErrorGroup` reports through `t.Errorf`. The assertions `NoError`, `EqualError` and `Len`
belong to testify, not to this repository; each is modelled after its documented behaviour and
returns the reports that it sends to `t`: none when it holds, one when it fails. -/

/-- One report of a failed assertion (one call of `t.Errorf`). -/
inductive Failure where
  | unexpectedError (msg : String)
  | errorExpected (expected : String)
  | messageNotEqual (expected actual : String)
  | shouldHaveItems (expected actual : Nat)
  deriving DecidableEq

/-- The assertion `assert.NoError(t, err)`. -/
def assert.NoError : error → List Failure
  | none => []
  | some e => [.unexpectedError e.Error]

/-- The assertion `assert.EqualError(t, theError, errString)`: it fails for a nil error, and
for an error whose message is not `errString`. -/
def assert.EqualError (theError : error) (errString : String) : List Failure :=
  match theError with
  | none => [.errorExpected errString]
  | some e => if errString ≠ e.Error then [.messageNotEqual errString e.Error] else []

/-- The assertion `assert.Len(t, object, length)` for a slice of `actual` elements. -/
def assert.Len (actual length : Nat) : List Failure :=
  if actual ≠ length then [.shouldHaveItems length actual] else []

/-- The function `minLen`. -/
def minLen (a : List error) (b : List String) : Nat :=
  if a.length < b.length then a.length else b.length

/-- The loop `for i := 0; i < l; i++ { assert.EqualError(t, errs[i], msgs[i]) }`, for the
`l - i` iterations that remain at index `i`; `none` is an index out of range. -/
def EqualErrorGroup.loop (errs : List error) (msgs : List String) : Nat → Nat → Option (List Failure)
  | 0, _ => some []
  | k + 1, i =>
    match errs[i]?, msgs[i]? with
    | some e, some m =>
      (EqualErrorGroup.loop errs msgs k (i + 1)).map (fun r => assert.EqualError e m ++ r)
    | _, _ => none

/-- The function `EqualErrorGroup(t, err, msgs)`: the reports sent to `t`, in order. -/
def EqualErrorGroup (err : error) (msgs : List String) : Option (List Failure) :=
  if msgs.length = 0 then some (assert.NoError err)
  else
    (EqualErrorGroup.loop (Collection err) msgs (minLen (Collection err) msgs) 0).map
      (fun r => r ++ assert.Len (Collection err).length msgs.length)

/-- The positions below both lengths at which the flattened message is not the expected one. -/
def mismatches (errs : List error) (msgs : List String) : List (error × String) :=
  (errs.zip msgs).filter (fun p => decide (error.Error p.1 ≠ some p.2))

/-- The reports of the loop over the pairs of the two slices. -/
def pairReports (l : List (error × String)) : List Failure :=
  l.flatMap (fun p => assert.EqualError p.1 p.2)

/-! ## Identity matching against any target

`errors.Is(err, target)` for a non-nil, comparable target of any type. `same e` stands for the
comparison `err == target` on the error value `e`: it is true on the value that is the target
and on no other value. A plain target at the address `a` is the test `plainAt a`, and
`errors.is_eq_isWith` shows that `errors.is` above is this function for that test.

The loop on a `*groupError` compares, calls the method `Is`, and then ranges over
`g.Unwrap()`, which is `g.Collection()`. `groupError.viewsIsWith` lists the elements of
`g.Unwrap()`, each with the result of the loop on it, member by member;
`errors.isWith_groupError` proves the equation of the standard library. -/

/-- The element `fmt.Errorf("%s%w", pfx, x)` of `g.Unwrap()` with the result of `errors.Is` on
it, where `r` is the result of `errors.Is` on `x`: true when the element is the target,
otherwise what holds for the error that it unwraps to. -/
def isView (same : Err → Bool) (pfx : String) (x : error) (r : Bool) : Err × Bool :=
  (Errorf pfx x, same (Errorf pfx x) || r)

mutual
/-- The loop of `errors.Is` on a non-nil error, for any target. -/
def errors.isWith (same : Err → Bool) : Err → Bool
  | .errorString a s => same (.errorString a s)
  | .wrapError m x => same (.wrapError m x) || errors.isWith same x
  | .wrapErrorNil m => same (.wrapErrorNil m)
  | .custom m c => same (.custom m c)
  | .groupError pfx errs =>
    same (.groupError pfx errs) || groupError.IsWith same errs
      || (groupError.viewsIsWith same pfx errs).any (fun vr => vr.2)
/-- The function `errors.Is(err, target)` for a non-nil target: a nil error is not the
target. -/
def errors.IsWith (same : Err → Bool) : Option Err → Bool
  | none => false
  | some e => errors.isWith same e
/-- The method `(*groupError).Is` for any target: the loop over `g.errors`. -/
def groupError.IsWith (same : Err → Bool) : List (Option Err) → Bool
  | [] => false
  | err :: rest => errors.IsWith same err || groupError.IsWith same rest
/-- The elements of `g.Unwrap()`, each with the result of `errors.Is` on it. -/
def groupError.viewsIsWith (same : Err → Bool) (pfx : String) :
    List (Option Err) → List (Err × Bool)
  | [] => []
  | err :: rest =>
    groupError.viewsIsWithStep same pfx err ++ groupError.viewsIsWith same pfx rest
/-- The elements of `g.Unwrap()` that come from one member. -/
def groupError.viewsIsWithStep (same : Err → Bool) (pfx : String) :
    Option Err → List (Err × Bool)
  | none => [isView same pfx none false]
  | some (.groupError q fs) =>
    (groupError.viewsIsWith same q fs).map (fun vr => isView same pfx (some vr.1) vr.2)
  | some (.custom _ c) => groupError.rawViewsIsWith same pfx c
  | some (.errorString a s) =>
    [isView same pfx (some (.errorString a s)) (errors.isWith same (.errorString a s))]
  | some (.wrapError m x) =>
    [isView same pfx (some (.wrapError m x)) (errors.isWith same (.wrapError m x))]
  | some (.wrapErrorNil m) =>
    [isView same pfx (some (.wrapErrorNil m)) (errors.isWith same (.wrapErrorNil m))]
/-- The elements of `g.Unwrap()` that come from the collection of a third-party member. -/
def groupError.rawViewsIsWith (same : Err → Bool) (pfx : String) :
    List (Option Err) → List (Err × Bool)
  | [] => []
  | x :: rest =>
    isView same pfx x (errors.IsWith same x) :: groupError.rawViewsIsWith same pfx rest
end

/-- The comparison with the plain error at the address `a`. -/
def plainAt (a : Nat) : Err → Bool
  | .errorString addr _ => addr == some a
  | _ => false

/-- The error `leaf` wrapped by `fmt.Errorf("%s%w", p, ...)` once for every prefix of the list,
the first prefix outermost. -/
def wrapViews : List String → Err → Err
  | [], leaf => leaf
  | p :: ps, leaf => Errorf p (some (wrapViews ps leaf))

/-- The views that `wrapViews` makes around `leaf`, the outermost first. -/
def viewsOf : List String → Err → List Err
  | [], _ => []
  | p :: ps, leaf => wrapViews (p :: ps) leaf :: viewsOf ps leaf

/-- An element of `g.Unwrap()` with the result of `errors.Is` on it. -/
def isViewResult (same : Err → Bool) (vr : Err × Bool) (x : error) : Prop :=
  x = some vr.1 ∧ errors.IsWith same x = vr.2

/-- An element of the flattened sequence is the leaf wrapped in views. -/
def isViewOf (el : error) (leaf : Err) : Prop :=
  ∃ ps, el = some (wrapViews ps leaf)

/-! ## Type extraction

`errors.As(err, target)` of the standard library. The target points to a variable of some
type; `assignable e` stands for the test `reflectlite.TypeOf(err).AssignableTo(targetType)` on
the error value `e`. In Go the test depends on the type of `e` only; the embedding takes any
predicate, so that a leaf can stand for a plain error of any type. The result is what the call
stores in the target: `some v` when it returns true, after storing `v`, and `none` when it
returns false, which stores nothing.

On a `*groupError` the loop of `errors.As` tests the type, calls the method `As`, and then
ranges over `g.Unwrap()`, which is `g.Collection()`. `groupError.viewsAs` lists the elements of
`g.Unwrap()`, each with the result of `errors.As` on it, member by member;
`groupError.viewsAs_eq` and `errors.as_groupError` prove the equation of the standard
library. -/

/-- The element `fmt.Errorf("%s%w", pfx, x)` of `g.Unwrap()` with the result of `errors.As` on
it, where `r` is the result of `errors.As` on `x`: the element itself when its type is
assignable, otherwise what it unwraps to. -/
def asView (assignable : Err → Bool) (pfx : String) (x : error) (r : Option Err) :
    Err × Option Err :=
  (Errorf pfx x, if assignable (Errorf pfx x) then some (Errorf pfx x) else r)

/-- The first result of a list of elements with their results. -/
def firstResult (l : List (Err × Option Err)) : Option Err :=
  l.findSome? (fun vr => vr.2)

mutual
/-- The loop of `errors.As` on a non-nil error. -/
def errors.as (assignable : Err → Bool) : Err → Option Err
  | .errorString a s =>
    if assignable (.errorString a s) then some (.errorString a s) else none
  | .wrapError m x =>
    if assignable (.wrapError m x) then some (.wrapError m x) else errors.as assignable x
  | .wrapErrorNil m =>
    if assignable (.wrapErrorNil m) then some (.wrapErrorNil m) else none
  | .custom m c =>
    if assignable (.custom m c) then some (.custom m c) else none
  | .groupError pfx errs =>
    if assignable (.groupError pfx errs) then some (.groupError pfx errs)
    else
      match groupError.As assignable errs with
      | some v => some v
      | none => firstResult (groupError.viewsAs assignable pfx errs)
/-- The function `errors.As(err, target)`: false for a nil error. -/
def errors.As (assignable : Err → Bool) : Option Err → Option Err
  | none => none
  | some e => errors.as assignable e
/-- The method `(*groupError).As`: the loop over `g.errors`. -/
def groupError.As (assignable : Err → Bool) : List (Option Err) → Option Err
  | [] => none
  | err :: rest =>
    match errors.As assignable err with
    | some v => some v
    | none => groupError.As assignable rest
/-- The elements of `g.Unwrap()`, each with the result of `errors.As` on it. -/
def groupError.viewsAs (assignable : Err → Bool) (pfx : String) :
    List (Option Err) → List (Err × Option Err)
  | [] => []
  | err :: rest =>
    groupError.viewsAsStep assignable pfx err ++ groupError.viewsAs assignable pfx rest
/-- The elements of `g.Unwrap()` that come from one member. -/
def groupError.viewsAsStep (assignable : Err → Bool) (pfx : String) :
    Option Err → List (Err × Option Err)
  | none => [asView assignable pfx none none]
  | some (.groupError q fs) =>
    (groupError.viewsAs assignable q fs).map
      (fun vr => asView assignable pfx (some vr.1) vr.2)
  | some (.custom _ c) => groupError.rawViewsAs assignable pfx c
  | some (.errorString a s) =>
    [asView assignable pfx (some (.errorString a s)) (errors.as assignable (.errorString a s))]
  | some (.wrapError m x) =>
    [asView assignable pfx (some (.wrapError m x)) (errors.as assignable (.wrapError m x))]
  | some (.wrapErrorNil m) =>
    [asView assignable pfx (some (.wrapErrorNil m)) (errors.as assignable (.wrapErrorNil m))]
/-- The elements of `g.Unwrap()` that come from the collection of a third-party member. -/
def groupError.rawViewsAs (assignable : Err → Bool) (pfx : String) :
    List (Option Err) → List (Err × Option Err)
  | [] => []
  | x :: rest =>
    asView assignable pfx x (errors.As assignable x)
      :: groupError.rawViewsAs assignable pfx rest
end

mutual
/-- The reference search of the specification for one error: a group is the match when its
own type is assignable, otherwise its members are searched in order; any other error is the
match when `errors.As` matches it. -/
def firstMatch.node (assignable : Err → Bool) : Err → Option Err
  | .groupError pfx errs =>
    if assignable (.groupError pfx errs) then some (.groupError pfx errs)
    else firstMatch assignable errs
  | .errorString a s => errors.as assignable (.errorString a s)
  | .wrapError m x => errors.as assignable (.wrapError m x)
  | .wrapErrorNil m => errors.as assignable (.wrapErrorNil m)
  | .custom m c => errors.as assignable (.custom m c)
/-- The reference search over the members, depth first: the first match in member order. -/
def firstMatch (assignable : Err → Bool) : List (Option Err) → Option Err
  | [] => none
  | none :: rest => firstMatch assignable rest
  | some e :: rest =>
    match firstMatch.node assignable e with
    | some v => some v
    | none => firstMatch assignable rest
end

/-- The target type `interface{ Unwrap() error }`: of the types of the embedding only
`*fmt.wrapError` has that method. -/
def unwrapper : Err → Bool
  | .wrapError _ _ => true
  | .wrapErrorNil _ => true
  | _ => false

/-- A target type whose only value in the example is the plain error at address 4 (the
`*net.AddrError` of the test). -/
def addrErrorType : Err → Bool
  | .errorString (some 4) _ => true
  | _ => false

/-- An element of `g.Unwrap()` with the result of `errors.As` on it. -/
def viewResult (assignable : Err → Bool) (vr : Err × Option Err) (x : error) : Prop :=
  x = some vr.1 ∧ errors.As assignable x = vr.2

/-! ## Termination

The functions above are total functions of Lean that satisfy the equations of the source. To
state that the recursion of the source itself ends, `CollectionFuel` and `assertCollectionFuel`
repeat the function `Collection` and the type assertion with the method call as the source
writes them, every call taking one unit of fuel; `none` is running out of fuel. -/

mutual
/-- The nesting depth of an error: 0 for a leaf, one more than the deepest member for a group
of this package and for a third-party group. -/
def Err.depth : Err → Nat
  | .errorString _ _ => 0
  | .wrapError _ _ => 0
  | .wrapErrorNil _ => 0
  | .custom _ c => depthAll c + 1
  | .groupError _ errors => depthAll errors + 1
/-- The depth of the deepest member. -/
def depthAll : List (Option Err) → Nat
  | [] => 0
  | none :: rest => depthAll rest
  | some e :: rest => max (Err.depth e) (depthAll rest)
end

/-- The nesting depth of a nil or non-nil error. -/
def error.depth : error → Nat
  | none => 0
  | some e => e.depth

/-- The loop `errs = append(errs, r...)` over results that may have run out of fuel. -/
def concatResults : List (Option (List error)) → Option (List error)
  | [] => some []
  | none :: _ => none
  | some a :: rest => (concatResults rest).map (fun b => a ++ b)

mutual
/-- The function `Collection` with fuel: the nil check, the type assertion with the method
call, and the recursive call on every element of the collection. -/
def CollectionFuel : Nat → Option Err → Option (List error)
  | 0, _ => none
  | _ + 1, none => some []
  | n + 1, some e =>
    match assertCollectionFuel n e with
    | none => none
    | some (some collection) => concatResults (collection.map (CollectionFuel n))
    | some none => some [some e]
/-- The type assertion `err.(interface{ Collection() []error })` with the call of the method,
with fuel: for a `*groupError` the loop over `g.errors`, which asserts and calls the method of
every member. The inner `none` is a failed assertion. -/
def assertCollectionFuel : Nat → Err → Option (Option (List error))
  | 0, _ => none
  | n + 1, .groupError pfx errs =>
    (concatResults (errs.map (fun err =>
      match err with
      | none => some [some (Errorf pfx none)]
      | some e =>
        match assertCollectionFuel n e with
        | none => none
        | some (some c) => some (c.map (fun x => some (Errorf pfx x)))
        | some none => some [some (Errorf pfx (some e))]))).map some
  | _ + 1, .custom _ c => some (some c)
  | _ + 1, .errorString _ _ => some none
  | _ + 1, .wrapError _ _ => some none
  | _ + 1, .wrapErrorNil _ => some none
end

/-- The elements that derive from a member `e` of a group with the prefix `pfx`: the prefixed
view of `e` when `e` is a leaf; the prefixed view of an element of the collection of `e` when
`e` is a third-party group; and, when `e` is a group of this package, the prefixed view of an
element that derives from a member of `e` (the view of nil for a nil member). -/
inductive derivesFrom : String → Err → Err → Prop where
  | errorString (pfx : String) (a : Option Nat) (s : String) :
    derivesFrom pfx (Errorf pfx (some (.errorString a s))) (.errorString a s)
  | wrapError (pfx m : String) (x : Err) :
    derivesFrom pfx (Errorf pfx (some (.wrapError m x))) (.wrapError m x)
  | wrapErrorNil (pfx m : String) :
    derivesFrom pfx (Errorf pfx (some (.wrapErrorNil m))) (.wrapErrorNil m)
  | custom (pfx msg : String) (c : List (Option Err)) (x : Option Err) :
    x ∈ c → derivesFrom pfx (Errorf pfx x) (.custom msg c)
  | member (pfx q : String) (fs : List (Option Err)) (m v : Err) :
    some m ∈ fs → derivesFrom q v m →
      derivesFrom pfx (Errorf pfx (some v)) (.groupError q fs)
  | nilMember (pfx q : String) (fs : List (Option Err)) :
    none ∈ fs → derivesFrom pfx (Errorf pfx (some (Errorf q none))) (.groupError q fs)

/-! ## The equations of the source -/

theorem messages_append {a b : List error} {x y : List String}
    (ha : messages a = some x) (hb : messages b = some y) :
    messages (a ++ b) = some (x ++ y) := by
  induction a generalizing x with
  | nil =>
    simp only [messages, Option.some.injEq] at ha
    subst ha
    simpa using hb
  | cons h t ih =>
    cases h with
    | none => simp [messages, error.Error] at ha
    | some e =>
      cases ht : messages t with
      | none => simp [messages, error.Error, ht] at ha
      | some ms =>
        simp only [messages, error.Error, ht, Option.some.injEq] at ha
        subst ha
        simp [messages, error.Error, ih ht]

theorem Errorf_Error (pfx : String) (e : Err) : (Errorf pfx (some e)).Error = pfx ++ e.Error := by
  simp [Errorf, Err.Error]

theorem Errorf_Error_nil (pfx : String) : (Errorf pfx none).Error = pfx ++ badVerbW := by
  simp [Errorf, Err.Error]

/-- Wrapping every element of a list of non-nil errors puts the prefix before every message. -/
theorem messages_map_Errorf (pfx : String) {l : List error} {ms : List String}
    (h : messages l = some ms) :
    messages (l.map (fun x => some (Errorf pfx x))) = some (ms.map (fun m => pfx ++ m)) := by
  induction l generalizing ms with
  | nil =>
    simp only [messages, Option.some.injEq] at h
    subst h
    rfl
  | cons x t ih =>
    cases x with
    | none => simp [messages, error.Error] at h
    | some e =>
      cases ht : messages t with
      | none => simp [messages, error.Error, ht] at h
      | some ts =>
        simp only [messages, error.Error, ht, Option.some.injEq] at h
        subst h
        simp [messages, error.Error, ih ht, Errorf_Error]

/-- The messages of the wrapped elements of a third-party collection. -/
theorem messages_map_Errorf_raw (pfx : String) (c : List error) :
    messages (c.map (fun x => some (Errorf pfx x))) = some (groupError.rawLines pfx c) := by
  induction c with
  | nil => rfl
  | cons x t ih =>
    cases x with
    | none => simp [messages, error.Error, ih, groupError.rawLines, Errorf_Error_nil]
    | some e => simp [messages, error.Error, ih, groupError.rawLines, Errorf_Error]

mutual
/-- The elements of `g.Collection()` are non-nil and their messages are `groupError.lines`. -/
theorem groupError.messages_Collection (pfx : String) :
    ∀ errors : List error,
      messages (groupError.Collection pfx errors) = some (groupError.lines pfx errors)
  | [] => rfl
  | err :: rest => by
    rw [groupError.Collection, groupError.lines]
    exact messages_append (groupError.messages_collectionStep pfx err)
      (groupError.messages_Collection pfx rest)
theorem groupError.messages_collectionStep (pfx : String) :
    ∀ err : error,
      messages (groupError.collectionStep pfx err) = some (groupError.line pfx err)
  | none => by
    simp [groupError.collectionStep, groupError.line, messages, error.Error, Errorf_Error_nil]
  | some (.groupError q fs) => by
    rw [groupError.collectionStep, Err.assertCollection, groupError.line]
    exact messages_map_Errorf pfx (groupError.messages_Collection q fs)
  | some (.custom m c) => by
    rw [groupError.collectionStep, Err.assertCollection, groupError.line]
    exact messages_map_Errorf_raw pfx c
  | some (.errorString a s) => by
    simp [groupError.collectionStep, Err.assertCollection, groupError.line, messages,
      error.Error, Errorf, Err.Error]
  | some (.wrapError m e) => by
    simp [groupError.collectionStep, Err.assertCollection, groupError.line, messages,
      error.Error, Errorf, Err.Error]
  | some (.wrapErrorNil m) => by
    simp [groupError.collectionStep, Err.assertCollection, groupError.line, messages,
      error.Error, Errorf, Err.Error]
end

/-- The source of `(*groupError).Error`: no element of `g.Collection()` is nil and the result
is `strings.Join` of their messages with a newline. -/
theorem groupError.Error_eq (pfx : String) (errors : List error) :
    (messages (groupError.Collection pfx errors)).map (fun s => "\n".intercalate s)
      = some (Err.Error (.groupError pfx errors)) := by
  rw [groupError.messages_Collection, Err.Error]
  rfl

/-! ## The builders: lemmas -/

theorem countNonNil_eq_length (errs : List error) :
    countNonNil errs = (errs.filter (fun x => x.isSome)).length := by
  induction errs with
  | nil => rfl
  | cons x t ih => cases x <;> simp [countNonNil, ih]

theorem filterNonNil_eq_filter (errs : List error) :
    filterNonNil errs = errs.filter (fun x => x.isSome) := by
  induction errs with
  | nil => rfl
  | cons x t ih => cases x <;> simp [filterNonNil, ih]

theorem countNonNil_eq_zero_iff (errs : List error) :
    countNonNil errs = 0 ↔ ∀ x ∈ errs, x = none := by
  induction errs with
  | nil => simp [countNonNil]
  | cons x t ih => cases x <;> simp [countNonNil, ih]

theorem filterNonNil_ne_nil {errs : List error} (h : countNonNil errs ≠ 0) :
    filterNonNil errs ≠ [] := by
  intro hnil
  apply h
  rw [countNonNil_eq_length, ← filterNonNil_eq_filter, hnil]
  rfl

/-! ## Claims about the builders -/

/-- C1: for every prefix and every sequence of errors, `Prefix` returns nil if and only if every
element is nil, and so does `Join`; the empty sequence gives nil, and a non-nil result is a
group with the given prefix and at least one member. -/
theorem Prefix_nil_iff (pfx : String) (errs : List error) :
    (Prefix pfx errs = none ↔ ∀ x ∈ errs, x = none) ∧
    (Join errs = none ↔ ∀ x ∈ errs, x = none) ∧
    Prefix pfx [] = none ∧ Join [] = none ∧
    (∀ g, Prefix pfx errs = some g →
      ∃ members, g = .groupError pfx members ∧ members ≠ []) ∧
    (∀ g, Join errs = some g →
      ∃ members, g = .groupError "" members ∧ members ≠ []) := by
  have key : ∀ q : String, (Prefix q errs = none ↔ ∀ x ∈ errs, x = none) := by
    intro q
    unfold Prefix
    by_cases h : countNonNil errs = 0
    · simp only [h, if_true, true_iff]
      exact (countNonNil_eq_zero_iff errs).1 h
    · simp only [h, if_false]
      constructor
      · intro h2
        cases h2
      · intro h2
        exact absurd ((countNonNil_eq_zero_iff errs).2 h2) h
  have mem : ∀ q : String, ∀ g, Prefix q errs = some g →
      ∃ members, g = .groupError q members ∧ members ≠ [] := by
    intro q g hg
    unfold Prefix at hg
    by_cases h : countNonNil errs = 0
    · simp [h] at hg
    · simp only [h, if_false, Option.some.injEq] at hg
      exact ⟨filterNonNil errs, hg.symm, filterNonNil_ne_nil h⟩
  exact ⟨key pfx, key "", rfl, rfl, mem pfx, mem ""⟩

/-- C2: when some element of the sequence is non-nil, `Prefix` returns the group whose prefix
is the given one and whose members are the non-nil elements in their original order, and `Join`
returns that group with the empty prefix. -/
theorem Prefix_members (pfx : String) (errs : List error) (h : ∃ e, some e ∈ errs) :
    Prefix pfx errs = some (.groupError pfx (errs.filter (fun x => x.isSome))) ∧
    Join errs = some (.groupError "" (errs.filter (fun x => x.isSome))) := by
  have hc : countNonNil errs ≠ 0 := by
    intro h0
    obtain ⟨e, he⟩ := h
    have := (countNonNil_eq_zero_iff errs).1 h0 _ he
    cases this
  simp [Join, Prefix, hc, filterNonNil_eq_filter]

/-- C2 at `Prefix("p: ", e1, nil, e2)`. -/
theorem Prefix_members_witness :
    (∃ e, some e ∈ [some (Err.errorString (some 1) "e1"), none,
        some (Err.errorString (some 2) "e2")]) ∧
    Prefix "p: " [some (Err.errorString (some 1) "e1"), none,
        some (Err.errorString (some 2) "e2")]
      = some (.groupError "p: " [some (Err.errorString (some 1) "e1"),
        some (Err.errorString (some 2) "e2")]) :=
  ⟨⟨_, List.mem_cons_self _ _⟩,
    (Prefix_members "p: " _ ⟨_, List.mem_cons_self _ _⟩).1⟩

/-! ## The equation of the function `Collection` -/

/-- A result of `fmt.Errorf` has no method `Collection`. -/
theorem Errorf_assertCollection (pfx : String) (x : error) :
    (Errorf pfx x).assertCollection = none := by
  cases x <;> rfl

/-- Flattening a result of `fmt.Errorf` gives the value itself. -/
theorem Collection_Errorf (pfx : String) (x : error) :
    Collection (some (Errorf pfx x)) = [some (Errorf pfx x)] := by
  cases x <;> rfl

theorem CollectionAll_append (a b : List error) :
    CollectionAll (a ++ b) = CollectionAll a ++ CollectionAll b := by
  induction a with
  | nil => rfl
  | cons x t ih => simp [CollectionAll, ih]

theorem CollectionAll_map_Errorf (pfx : String) (l : List error) :
    CollectionAll (l.map (fun x => some (Errorf pfx x))) = l.map (fun x => some (Errorf pfx x)) := by
  induction l with
  | nil => rfl
  | cons x t ih => simp [CollectionAll, ih, Collection_Errorf]

theorem groupError.CollectionAll_collectionStep (pfx : String) (err : error) :
    CollectionAll (groupError.collectionStep pfx err) = groupError.collectionStep pfx err := by
  cases err with
  | none => simp [groupError.collectionStep, CollectionAll, Collection_Errorf]
  | some e =>
    rw [groupError.collectionStep]
    cases h : Err.assertCollection e with
    | none => simp [CollectionAll, Collection_Errorf]
    | some c => exact CollectionAll_map_Errorf pfx c

theorem groupError.CollectionAll_Collection (pfx : String) (errors : List error) :
    CollectionAll (groupError.Collection pfx errors) = groupError.Collection pfx errors := by
  induction errors with
  | nil => rfl
  | cons x t ih =>
    rw [groupError.Collection, CollectionAll_append, ih,
      groupError.CollectionAll_collectionStep]

/-- The source of the function `Collection` for a non-nil error: when the type assertion
succeeds, the concatenation of `Collection(x)` over the elements of `group.Collection()`;
otherwise the one-element slice. -/
theorem Collection_eq (e : Err) :
    Collection (some e) =
      match e.assertCollection with
      | some collection => CollectionAll collection
      | none => [some e] := by
  cases e with
  | errorString a s => rfl
  | wrapError m x => rfl
  | wrapErrorNil m => rfl
  | custom m c => rfl
  | groupError pfx errors =>
    rw [Collection, Collection.nonNil, Err.assertCollection]
    exact (groupError.CollectionAll_Collection pfx errors).symm

/-! ## Trees: lemmas -/

theorem builtAll_iff (errs : List error) :
    builtAll errs = true ↔ ∀ x ∈ errs, ∃ e, x = some e ∧ e.built = true := by
  induction errs with
  | nil => simp [builtAll]
  | cons x t ih =>
    cases x with
    | none => simp [builtAll]
    | some e => simp [builtAll, ih]

theorem builtAll_filterNonNil (errs : List error) (h : ∀ x ∈ errs, error.built x = true) :
    builtAll (filterNonNil errs) = true := by
  induction errs with
  | nil => rfl
  | cons x t ih =>
    have ht : ∀ y ∈ t, error.built y = true := fun y hy => h y (List.mem_cons_of_mem _ hy)
    cases x with
    | none => simpa [filterNonNil] using ih ht
    | some e =>
      have he : e.built = true := h (some e) (List.mem_cons_self _ _)
      simp [filterNonNil, builtAll, he, ih ht]

/-- A group made by `Prefix` from nil errors and built errors is built. -/
theorem Prefix_built (pfx : String) (errs : List error) (g : Err)
    (h : ∀ x ∈ errs, error.built x = true) (hg : Prefix pfx errs = some g) :
    g.built = true := by
  unfold Prefix at hg
  by_cases hc : countNonNil errs = 0
  · simp [hc] at hg
  · simp only [hc, if_false, Option.some.injEq] at hg
    subst hg
    have hne := filterNonNil_ne_nil hc
    simp only [Err.built, builtAll_filterNonNil errs h, Bool.and_true, Bool.not_eq_eq_eq_not,
      Bool.not_true]
    cases hf : filterNonNil errs with
    | nil => exact absurd hf hne
    | cons a l => rfl

theorem filterNonNil_of_builtAll (errs : List error) (h : builtAll errs = true) :
    filterNonNil errs = errs := by
  induction errs with
  | nil => rfl
  | cons x t ih =>
    cases x with
    | none => simp [builtAll] at h
    | some e =>
      simp only [builtAll, Bool.and_eq_true] at h
      simp [filterNonNil, ih h.2]

/-- A built group is the result of `Prefix` on its own prefix and members. -/
theorem built_eq_Prefix (pfx : String) (errors : List error)
    (h : (Err.groupError pfx errors).built = true) :
    Prefix pfx errors = some (.groupError pfx errors) := by
  simp only [Err.built, Bool.and_eq_true, Bool.not_eq_eq_eq_not, Bool.not_true] at h
  have hc : countNonNil errors ≠ 0 := by
    cases errors with
    | nil => simp at h
    | cons x t =>
      cases x with
      | none => simp [builtAll] at h
      | some e => simp [countNonNil]
  simp [Prefix, hc, filterNonNil_of_builtAll errors h.2]

/-! ## Flattening a tree -/

mutual
/-- On built members the messages of `g.Collection()` are the reference flattening of the
members with the prefix of the group in front. -/
theorem groupError.lines_eq_flatAll (pfx : String) :
    ∀ errors : List (Option Err), builtAll errors = true →
      groupError.lines pfx errors = (flatAll errors).map (fun m => pfx ++ m)
  | [], _ => rfl
  | none :: _, h => by simp [builtAll] at h
  | some e :: rest, h => by
    simp only [builtAll, Bool.and_eq_true] at h
    rw [groupError.lines, flatAll, List.map_append, groupError.line_eq_flat pfx e h.1,
      groupError.lines_eq_flatAll pfx rest h.2]
theorem groupError.line_eq_flat (pfx : String) :
    ∀ e : Err, e.built = true →
      groupError.line pfx (some e) = (Err.flat e).map (fun m => pfx ++ m)
  | .errorString _ _, _ => rfl
  | .wrapError _ _, _ => rfl
  | .wrapErrorNil _, _ => rfl
  | .custom _ _, h => by simp [Err.built] at h
  | .groupError q fs, h => by
    simp only [Err.built, Bool.and_eq_true] at h
    rw [groupError.line, Err.flat, groupError.lines_eq_flatAll q fs h.2]
end

/-- C3: for every tree built only from leaf errors and groups made by `Prefix` or `Join`, no
element of `Collection(t)` is nil and the list of their messages is the reference flattening
`flat(t)`. -/
theorem Collection_messages_eq_flat (t : Err) (h : t.built = true) :
    messages (Collection (some t)) = some t.flat := by
  cases t with
  | errorString a s => rfl
  | wrapError m e => rfl
  | wrapErrorNil m => rfl
  | custom m c => simp [Err.built] at h
  | groupError pfx errors =>
    simp only [Err.built, Bool.and_eq_true] at h
    rw [Collection, Collection.nonNil, groupError.messages_Collection, Err.flat,
      groupError.lines_eq_flatAll pfx errors h.2]

/-- C3 at the three-level example of `ExamplePrefix`. -/
theorem Collection_messages_eq_flat_witness :
    ∃ t : Err,
      Prefix "operation failed: " [
        Prefix "could not create new user: " [
          some (.errorString (some 1) "unexpected error"),
          Prefix "validation: " [
            some (.errorString (some 2) "invalid name"), none, none,
            some (.errorString (some 3) "invalid age")]]] = some t ∧
      t.built = true ∧
      messages (Collection (some t)) = some [
        "operation failed: could not create new user: unexpected error",
        "operation failed: could not create new user: validation: invalid name",
        "operation failed: could not create new user: validation: invalid age"] :=
  ⟨_, rfl, by decide, (Collection_messages_eq_flat _ (by decide)).trans (by decide)⟩

/-- C4: `Collection(nil)` is the empty sequence: its length is 0 and it is not the one-element
sequence that holds nil. -/
theorem Collection_nil :
    Collection none = [] ∧ (Collection none).length = 0 ∧ Collection none ≠ [none] := by
  refine ⟨rfl, rfl, ?_⟩
  intro h
  cases h

/-- C5: for every non-nil error without the method `Collection`, `Collection(e)` is the
one-element sequence that holds `e` itself, so its only message is the message of `e`. A
`fmt.Errorf` wrapper has no method `Collection`, whatever it wraps. -/
theorem Collection_leaf (e : Err) (h : e.assertCollection = none) :
    Collection (some e) = [some e] ∧ messages (Collection (some e)) = some [e.Error] := by
  have hc : Collection (some e) = [some e] := by
    rw [Collection_eq, h]
  rw [hc]
  exact ⟨rfl, rfl⟩

/-- C5 at `fmt.Errorf("error: %w", Prefix("A: ", leaf))`: one element, the wrapper itself. -/
theorem Collection_leaf_witness :
    (Errorf "error: " (Prefix "A: " [some (.errorString (some 1) "leaf")])).assertCollection
      = none ∧
    Collection (some (Errorf "error: " (Prefix "A: " [some (.errorString (some 1) "leaf")])))
      = [some (.wrapError "error: A: leaf"
          (.groupError "A: " [some (.errorString (some 1) "leaf")]))] :=
  ⟨rfl,
    (Collection_leaf (Errorf "error: " (Prefix "A: " [some (.errorString (some 1) "leaf")]))
      rfl).1.trans rfl⟩

/-- A non-nil result of `Prefix` is the group of the filtered members. -/
theorem Prefix_eq_some {pfx : String} {errs : List error} {g : Err}
    (h : Prefix pfx errs = some g) : g = .groupError pfx (filterNonNil errs) := by
  unfold Prefix at h
  by_cases hc : countNonNil errs = 0
  · simp [hc] at h
  · simp only [hc, if_false, Option.some.injEq] at h
    exact h.symm

/-- C6: for every group made by `Prefix` or `Join`, no element of `Collection(g)` is nil and
`g.Error()` is the messages of the elements of `Collection(g)`, in order, joined with one
newline between consecutive messages. -/
theorem Error_eq_join_Collection (pfx : String) (errs : List error) (g : Err)
    (h : Prefix pfx errs = some g) :
    ∃ ms, messages (Collection (some g)) = some ms ∧ g.Error = "\n".intercalate ms := by
  rw [Prefix_eq_some h]
  exact ⟨groupError.lines pfx (filterNonNil errs),
    by rw [Collection, Collection.nonNil, groupError.messages_Collection], by rw [Err.Error]⟩

/-- C6 at `Prefix("p: ", Join(a, b), nil, c)`: the message is three lines. -/
theorem Error_eq_join_Collection_witness :
    Prefix "p: " [Join [some (.errorString (some 1) "a"), some (.errorString (some 2) "b")],
        none, some (.errorString (some 3) "c")]
      = some (.groupError "p: " [
          some (.groupError "" [some (.errorString (some 1) "a"),
            some (.errorString (some 2) "b")]),
          some (.errorString (some 3) "c")]) ∧
    (Err.groupError "p: " [
        some (.groupError "" [some (.errorString (some 1) "a"),
          some (.errorString (some 2) "b")]),
        some (.errorString (some 3) "c")]).Error = "p: a\np: b\np: c" ∧
    ∃ ms, messages (Collection (some (.groupError "p: " [
          some (.groupError "" [some (.errorString (some 1) "a"),
            some (.errorString (some 2) "b")]),
          some (.errorString (some 3) "c")]))) = some ms ∧
      (Err.groupError "p: " [
          some (.groupError "" [some (.errorString (some 1) "a"),
            some (.errorString (some 2) "b")]),
          some (.errorString (some 3) "c")]).Error = "\n".intercalate ms :=
  ⟨rfl, by decide, Error_eq_join_Collection "p: "
    [Join [some (.errorString (some 1) "a"), some (.errorString (some 2) "b")],
      none, some (.errorString (some 3) "c")] _ rfl⟩

/-- The group made by `Prefix` from one non-nil error. -/
theorem Prefix_singleton (pfx : String) (e : Err) :
    Prefix pfx [some e] = some (.groupError pfx [some e]) := rfl

/-- Flattening a group whose only member is a group wraps every element of the member. -/
theorem Collection_group_of_group (p q : String) (fs : List error) :
    Collection (some (.groupError p [some (.groupError q fs)]))
      = (Collection (some (.groupError q fs))).map (fun x => some (Errorf p x)) := by
  simp [Collection, Collection.nonNil, groupError.Collection, groupError.collectionStep,
    Err.assertCollection]

/-- Flattening a group whose only member is a leaf gives the wrapped leaf. -/
theorem Collection_group_of_leaf (p : String) (e : Err) (h : e.assertCollection = none) :
    Collection (some (.groupError p [some e])) = [some (Errorf p (some e))] := by
  simp [Collection, Collection.nonNil, groupError.Collection, groupError.collectionStep, h]

theorem nest_aux (x : Err) (hx : x.assertCollection = none) (ps : List String) :
    ∃ y el, nest ps (some x) = some y ∧ (y = x ∨ ∃ q fs, y = .groupError q fs) ∧
      Collection (some y) = [some el] ∧
      el.Error = ps.foldr (fun p m => p ++ m) x.Error := by
  induction ps with
  | nil => exact ⟨x, x, rfl, Or.inl rfl, by rw [Collection_eq, hx], rfl⟩
  | cons p ps ih =>
    obtain ⟨y, el, hy, hshape, hcol, hmsg⟩ := ih
    refine ⟨.groupError p [some y], Errorf p (some el), ?_, Or.inr ⟨_, _, rfl⟩, ?_, ?_⟩
    · rw [nest, hy, Prefix_singleton]
    · rcases hshape with rfl | ⟨q, fs, rfl⟩
      · rw [Collection_eq, hx] at hcol
        simp only [List.cons.injEq, Option.some.injEq, and_true] at hcol
        subst hcol
        exact Collection_group_of_leaf p _ hx
      · rw [Collection_group_of_group, hcol]
        rfl
    · rw [Errorf_Error, hmsg]
      rfl

/-- C7: for every leaf error `x` and every non-empty list of prefixes `p1..pn`,
`Collection(Prefix(p1, Prefix(p2, ... Prefix(pn, x))))` has exactly one element, and its message
is `p1 ++ p2 ++ ... ++ pn ++ message(x)`: every prefix once, outermost first. -/
theorem Collection_nest (ps : List String) (x : Err) (hx : x.assertCollection = none)
    (_hps : ps ≠ []) :
    ∃ el, Collection (nest ps (some x)) = [some el] ∧
      el.Error = ps.foldr (fun p m => p ++ m) x.Error := by
  obtain ⟨y, el, hy, _, hcol, hmsg⟩ := nest_aux x hx ps
  exact ⟨el, by rw [hy, hcol], hmsg⟩

/-- C7 at the prefixes "A: ", "B: ", "C: " and the message "x": the message is "A: B: C: x". -/
theorem Collection_nest_witness :
    (Err.errorString (some 1) "x").assertCollection = none ∧ ["A: ", "B: ", "C: "] ≠ [] ∧
    ∃ el, Collection (Prefix "A: " [Prefix "B: " [Prefix "C: "
        [some (.errorString (some 1) "x")]]]) = [some el] ∧
      el.Error = "A: B: C: x" :=
  ⟨rfl, by decide,
    Collection_nest ["A: ", "B: ", "C: "] (.errorString (some 1) "x") rfl (by decide)⟩

/-- C8: for every prefix `p` and every group `g` made by `Prefix` or `Join`, the elements of
`Collection(Prefix(p, g))` are the elements of `Collection(g)`, each wrapped once with `p`: the
two sequences have the same length and the i-th message of the first is `p` followed by the
i-th message of the second. -/
theorem Collection_Prefix_group (p q : String) (errs : List error) (g : Err)
    (hg : Prefix q errs = some g) :
    Collection (Prefix p [some g]) = (Collection (some g)).map (fun x => some (Errorf p x)) ∧
    (Collection (Prefix p [some g])).length = (Collection (some g)).length ∧
    ∃ ms, messages (Collection (some g)) = some ms ∧
      messages (Collection (Prefix p [some g])) = some (ms.map (fun m => p ++ m)) ∧
      ∀ (i : Nat) (m : String), ms[i]? = some m →
        (ms.map (fun m => p ++ m))[i]? = some (p ++ m) := by
  have hcol : Collection (Prefix p [some g])
      = (Collection (some g)).map (fun x => some (Errorf p x)) := by
    rw [Prefix_eq_some hg, Prefix_singleton, Collection_group_of_group]
  have hms : messages (Collection (some g)) = some (groupError.lines q (filterNonNil errs)) := by
    rw [Prefix_eq_some hg, Collection, Collection.nonNil, groupError.messages_Collection]
  refine ⟨hcol, by rw [hcol, List.length_map], _, hms, ?_, ?_⟩
  · rw [hcol]
    exact messages_map_Errorf p hms
  · intro i m hi
    simp [hi]

/-- C8 at `Prefix("my group: ", Prefix("some errors: ", a, b))`. -/
theorem Collection_Prefix_group_witness :
    Prefix "some errors: " [some (.errorString (some 1) "a"), some (.errorString (some 2) "b")]
      = some (.groupError "some errors: "
          [some (.errorString (some 1) "a"), some (.errorString (some 2) "b")]) ∧
    messages (Collection (some (.groupError "some errors: "
          [some (.errorString (some 1) "a"), some (.errorString (some 2) "b")])))
      = some ["some errors: a", "some errors: b"] ∧
    messages (Collection (Prefix "my group: " [some (.groupError "some errors: "
          [some (.errorString (some 1) "a"), some (.errorString (some 2) "b")])]))
      = some ["my group: some errors: a", "my group: some errors: b"] :=
  ⟨rfl, by decide,
    (congrArg messages (Collection_Prefix_group "my group: " "some errors: "
      [some (.errorString (some 1) "a"), some (.errorString (some 2) "b")] _ rfl).1).trans
      (by decide)⟩

/-! ## Flattening a join of leaves -/

/-- When every non-nil member is a leaf, `g.Collection()` wraps the members one by one. -/
theorem groupError.Collection_of_leaves (pfx : String) (errors : List error)
    (h : ∀ e, some e ∈ errors → e.assertCollection = none) :
    groupError.Collection pfx errors = errors.map (fun x => some (Errorf pfx x)) := by
  induction errors with
  | nil => rfl
  | cons x t ih =>
    have ht : ∀ e, some e ∈ t → e.assertCollection = none :=
      fun e he => h e (List.mem_cons_of_mem _ he)
    cases x with
    | none => simp [groupError.Collection, groupError.collectionStep, ih ht]
    | some e =>
      have he : e.assertCollection = none := h e (List.mem_cons_self _ _)
      simp [groupError.Collection, groupError.collectionStep, he, ih ht]

theorem messages_map_Errorf_empty (l : List error) :
    messages (l.map (fun x => some (Errorf "" x))) = some (l.map (fun x =>
      match x with
      | none => badVerbW
      | some e => e.Error)) := by
  induction l with
  | nil => rfl
  | cons x t ih =>
    cases x with
    | none => simp [messages, error.Error, ih, Errorf_Error_nil]
    | some e => simp [messages, error.Error, ih, Errorf_Error]

theorem messages_filter_isSome (l : List error) :
    messages (l.filter (fun x => x.isSome)) = some ((l.filter (fun x => x.isSome)).map (fun x =>
      match x with
      | none => badVerbW
      | some e => e.Error)) := by
  induction l with
  | nil => rfl
  | cons x t ih =>
    cases x with
    | none => simpa using ih
    | some e => simp [messages, error.Error, ih]

/-- C9, as stated, fails when an element is itself a group: `Join(Join(a, b))` has one
non-nil element and flattens to two. -/
theorem Collection_Join_length_counterexample :
    (∃ e, some e ∈ [Join [some (Err.errorString (some 1) "a"),
        some (Err.errorString (some 2) "b")]]) ∧
    (Collection (Join [Join [some (Err.errorString (some 1) "a"),
        some (Err.errorString (some 2) "b")]])).length ≠
    ([Join [some (Err.errorString (some 1) "a"),
        some (Err.errorString (some 2) "b")]].filter (fun x => x.isSome)).length :=
  ⟨⟨_, List.mem_cons_self _ _⟩, by decide⟩

/-- C9 (amended): for every sequence with at least one non-nil element in which every non-nil
element is a leaf error (has no method `Collection`), `Collection(Join(E...))` has as many
elements as `E` has non-nil elements, and its i-th element is the i-th non-nil element of `E`
wrapped with the empty prefix, with the same message. -/
theorem Collection_Join_leaves (errs : List error) (h : ∃ e, some e ∈ errs)
    (hleaf : ∀ e, some e ∈ errs → e.assertCollection = none) :
    Collection (Join errs)
      = (errs.filter (fun x => x.isSome)).map (fun x => some (Errorf "" x)) ∧
    (Collection (Join errs)).length = (errs.filter (fun x => x.isSome)).length ∧
    messages (Collection (Join errs)) = messages (errs.filter (fun x => x.isSome)) := by
  have hc : countNonNil errs ≠ 0 := by
    intro h0
    obtain ⟨e, he⟩ := h
    have := (countNonNil_eq_zero_iff errs).1 h0 _ he
    cases this
  have hj : Join errs = some (.groupError "" (errs.filter (fun x => x.isSome))) := by
    simp [Join, Prefix, hc, filterNonNil_eq_filter]
  have hl : ∀ e, some e ∈ errs.filter (fun x => x.isSome) → e.assertCollection = none :=
    fun e he => hleaf e (List.mem_of_mem_filter he)
  have hcol : Collection (Join errs)
      = (errs.filter (fun x => x.isSome)).map (fun x => some (Errorf "" x)) := by
    rw [hj, Collection, Collection.nonNil, groupError.Collection_of_leaves _ _ hl]
  refine ⟨hcol, by rw [hcol, List.length_map], ?_⟩
  rw [hcol, messages_map_Errorf_empty, messages_filter_isSome]

/-- C9 (amended) at `Join(closed, nil, exist)`. -/
theorem Collection_Join_leaves_witness :
    (∃ e, some e ∈ [some (Err.errorString (some 1) "file already closed"), none,
        some (Err.errorString (some 2) "file already exists")]) ∧
    (∀ e, some e ∈ [some (Err.errorString (some 1) "file already closed"), none,
        some (Err.errorString (some 2) "file already exists")] → e.assertCollection = none) ∧
    (Collection (Join [some (Err.errorString (some 1) "file already closed"), none,
        some (Err.errorString (some 2) "file already exists")])).length = 2 ∧
    messages (Collection (Join [some (Err.errorString (some 1) "file already closed"), none,
        some (Err.errorString (some 2) "file already exists")]))
      = some ["file already closed", "file already exists"] :=
  have hl : ∀ e, some e ∈ [some (Err.errorString (some 1) "file already closed"), none,
      some (Err.errorString (some 2) "file already exists")] → e.assertCollection = none := by
    intro e he
    simp only [List.mem_cons, Option.some.injEq, List.mem_singleton, List.not_mem_nil,
      or_false] at he
    rcases he with rfl | he | rfl
    · rfl
    · cases he
    · rfl
  ⟨⟨_, List.mem_cons_self _ _⟩, hl,
    (Collection_Join_leaves _ ⟨_, List.mem_cons_self _ _⟩ hl).2.1.trans rfl,
    (Collection_Join_leaves _ ⟨_, List.mem_cons_self _ _⟩ hl).2.2.trans (by decide)⟩

/-! ## Identity matching of the flattened elements -/

/-- A result of `fmt.Errorf("%s%w", pfx, x)` matches the plain targets that `x` matches: it is
not the target itself, it has no method `Is`, and it unwraps to `x`. -/
theorem errors.Is_Errorf (pfx : String) (x : error) (target : Nat) :
    errors.Is (some (Errorf pfx x)) target = errors.Is x target := by
  cases x with
  | none => simp [Errorf, errors.Is, errors.is]
  | some e => simp [Errorf, errors.Is, errors.is]

theorem any_Is_map_Errorf (pfx : String) (l : List error) (target : Nat) :
    (l.map (fun x => some (Errorf pfx x))).any (fun x => errors.Is x target)
      = l.any (fun x => errors.Is x target) := by
  induction l with
  | nil => rfl
  | cons x t ih => simp [errors.Is_Errorf, ih]

theorem groupError.Is_eq_any (errs : List error) (target : Nat) :
    groupError.Is errs target = errs.any (fun x => errors.Is x target) := by
  induction errs with
  | nil => rfl
  | cons x t ih => simp [groupError.Is, ih]

mutual
theorem groupError.unwrapIs_eq (pfx : String) (target : Nat) :
    ∀ errs : List (Option Err),
      groupError.unwrapIs errs target
        = (groupError.Collection pfx errs).any (fun x => errors.Is x target)
  | [] => rfl
  | err :: rest => by
    rw [groupError.unwrapIs, groupError.Collection, List.any_append,
      groupError.unwrapIsStep_eq pfx target err, groupError.unwrapIs_eq pfx target rest]
theorem groupError.unwrapIsStep_eq (pfx : String) (target : Nat) :
    ∀ err : Option Err,
      groupError.unwrapIsStep err target
        = (groupError.collectionStep pfx err).any (fun x => errors.Is x target)
  | none => by
    simp [groupError.unwrapIsStep, groupError.collectionStep, errors.Is, Errorf, errors.is]
  | some (.groupError q fs) => by
    rw [groupError.unwrapIsStep, groupError.collectionStep, Err.assertCollection,
      any_Is_map_Errorf, groupError.unwrapIs_eq q target fs]
  | some (.custom m c) => by
    rw [groupError.unwrapIsStep, groupError.collectionStep, Err.assertCollection,
      any_Is_map_Errorf, groupError.Is_eq_any]
  | some (.errorString a s) => by
    simp [groupError.unwrapIsStep, groupError.collectionStep, Err.assertCollection,
      errors.Is_Errorf, errors.Is, errors.is]
  | some (.wrapError m e) => by
    simp [groupError.unwrapIsStep, groupError.collectionStep, Err.assertCollection,
      errors.Is_Errorf, errors.Is, errors.is]
  | some (.wrapErrorNil m) => by
    simp [groupError.unwrapIsStep, groupError.collectionStep, Err.assertCollection,
      errors.Is_Errorf, errors.Is, errors.is]
end

/-- The loop of `errors.is` on a `*groupError`, as the standard library writes it: the method
`Is`, then every element of `g.Unwrap() = g.Collection()`. -/
theorem errors.is_groupError (pfx : String) (errs : List error) (target : Nat) :
    errors.is (.groupError pfx errs) target
      = (groupError.Is errs target
          || (groupError.Collection pfx errs).any (fun x => errors.Is x target)) := by
  rw [errors.is, groupError.unwrapIs_eq pfx target errs]

theorem sameMatches_Errorf (pfx : String) {x : error} {leaf : Err} (h : sameMatches x leaf) :
    sameMatches (some (Errorf pfx x)) leaf := by
  intro target
  rw [errors.Is_Errorf, h target]

theorem forall2_map_Errorf (pfx : String) {l : List error} {leaves : List Err}
    (h : List.Forall₂ sameMatches l leaves) :
    List.Forall₂ sameMatches (l.map (fun x => some (Errorf pfx x))) leaves := by
  rw [List.forall₂_map_left_iff]
  exact h.imp (fun _ _ hab => sameMatches_Errorf pfx hab)

mutual
/-- On built members the elements of `g.Collection()` correspond, in order, to the leaves. -/
theorem groupError.members_sameMatches (pfx : String) :
    ∀ errs : List (Option Err), builtAll errs = true →
      List.Forall₂ sameMatches (groupError.Collection pfx errs) (leavesAll errs)
  | [], _ => List.Forall₂.nil
  | none :: _, h => by simp [builtAll] at h
  | some e :: rest, h => by
    simp only [builtAll, Bool.and_eq_true] at h
    rw [groupError.Collection, leavesAll]
    exact List.rel_append (groupError.collectionStep_sameMatches pfx e h.1)
      (groupError.members_sameMatches pfx rest h.2)
theorem groupError.collectionStep_sameMatches (pfx : String) :
    ∀ e : Err, e.built = true →
      List.Forall₂ sameMatches (groupError.collectionStep pfx (some e)) (Err.leaves e)
  | .errorString a s, _ =>
    List.Forall₂.cons (fun target => errors.Is_Errorf pfx _ target) List.Forall₂.nil
  | .wrapError m x, _ =>
    List.Forall₂.cons (fun target => errors.Is_Errorf pfx _ target) List.Forall₂.nil
  | .wrapErrorNil m, _ =>
    List.Forall₂.cons (fun target => errors.Is_Errorf pfx _ target) List.Forall₂.nil
  | .custom _ _, h => by simp [Err.built] at h
  | .groupError q fs, h => by
    simp only [Err.built, Bool.and_eq_true] at h
    rw [groupError.collectionStep, Err.assertCollection, Err.leaves]
    exact forall2_map_Errorf pfx (groupError.members_sameMatches q fs h.2)
end

theorem Collection_sameMatches (t : Err) (h : t.built = true) :
    List.Forall₂ sameMatches (Collection (some t)) t.leaves := by
  cases t with
  | errorString a s => exact List.Forall₂.cons (fun _ => rfl) List.Forall₂.nil
  | wrapError m e => exact List.Forall₂.cons (fun _ => rfl) List.Forall₂.nil
  | wrapErrorNil m => exact List.Forall₂.cons (fun _ => rfl) List.Forall₂.nil
  | custom m c => simp [Err.built] at h
  | groupError pfx errors =>
    simp only [Err.built, Bool.and_eq_true] at h
    rw [Collection, Collection.nonNil, Err.leaves]
    exact groupError.members_sameMatches pfx errors h.2

/-! ## Identity matching against any target: the equation of the standard library -/

/-- `errors.Is` on a result of `fmt.Errorf("%s%w", pfx, x)`: true when the result is the
target, otherwise what holds for `x`. -/
theorem errors.IsWith_Errorf (same : Err → Bool) (pfx : String) (x : error) :
    errors.IsWith same (some (Errorf pfx x))
      = (same (Errorf pfx x) || errors.IsWith same x) := by
  cases x with
  | none => simp [Errorf, errors.IsWith, errors.isWith]
  | some e => simp [Errorf, errors.IsWith, errors.isWith]

theorem isViewResult_isView (same : Err → Bool) (pfx : String) (x : error) :
    isViewResult same (isView same pfx x (errors.IsWith same x)) (some (Errorf pfx x)) :=
  ⟨rfl, errors.IsWith_Errorf same pfx x⟩

theorem isViewResult_map (same : Err → Bool) (pfx : String)
    {l : List (Err × Bool)} {c : List error}
    (h : List.Forall₂ (isViewResult same) l c) :
    List.Forall₂ (isViewResult same)
      (l.map (fun vr => isView same pfx (some vr.1) vr.2))
      (c.map (fun x => some (Errorf pfx x))) := by
  rw [List.forall₂_map_left_iff, List.forall₂_map_right_iff]
  refine h.imp ?_
  rintro vr x ⟨hx, hr⟩
  subst hx
  rw [← hr]
  exact isViewResult_isView same pfx (some vr.1)

theorem groupError.rawViewsIsWith_eq (same : Err → Bool) (pfx : String) (c : List error) :
    List.Forall₂ (isViewResult same) (groupError.rawViewsIsWith same pfx c)
      (c.map (fun x => some (Errorf pfx x))) := by
  induction c with
  | nil => exact List.Forall₂.nil
  | cons x t ih =>
    rw [groupError.rawViewsIsWith]
    exact List.Forall₂.cons (isViewResult_isView same pfx x) ih

mutual
/-- The list `groupError.viewsIsWith` holds the elements of `g.Collection()`, in order, each
with the result of `errors.Is` on it. -/
theorem groupError.viewsIsWith_eq (same : Err → Bool) (pfx : String) :
    ∀ errs : List (Option Err),
      List.Forall₂ (isViewResult same) (groupError.viewsIsWith same pfx errs)
        (groupError.Collection pfx errs)
  | [] => List.Forall₂.nil
  | err :: rest => by
    rw [groupError.viewsIsWith, groupError.Collection]
    exact List.rel_append (groupError.viewsIsWithStep_eq same pfx err)
      (groupError.viewsIsWith_eq same pfx rest)
theorem groupError.viewsIsWithStep_eq (same : Err → Bool) (pfx : String) :
    ∀ err : Option Err,
      List.Forall₂ (isViewResult same) (groupError.viewsIsWithStep same pfx err)
        (groupError.collectionStep pfx err)
  | none => by
    rw [groupError.viewsIsWithStep, groupError.collectionStep]
    exact List.Forall₂.cons (isViewResult_isView same pfx none) List.Forall₂.nil
  | some (.groupError q fs) => by
    rw [groupError.viewsIsWithStep, groupError.collectionStep, Err.assertCollection]
    exact isViewResult_map same pfx (groupError.viewsIsWith_eq same q fs)
  | some (.custom m c) => by
    rw [groupError.viewsIsWithStep, groupError.collectionStep, Err.assertCollection]
    exact groupError.rawViewsIsWith_eq same pfx c
  | some (.errorString a s) => by
    rw [groupError.viewsIsWithStep, groupError.collectionStep, Err.assertCollection]
    exact List.Forall₂.cons (isViewResult_isView same pfx (some (.errorString a s)))
      List.Forall₂.nil
  | some (.wrapError m x) => by
    rw [groupError.viewsIsWithStep, groupError.collectionStep, Err.assertCollection]
    exact List.Forall₂.cons (isViewResult_isView same pfx (some (.wrapError m x)))
      List.Forall₂.nil
  | some (.wrapErrorNil m) => by
    rw [groupError.viewsIsWithStep, groupError.collectionStep, Err.assertCollection]
    exact List.Forall₂.cons (isViewResult_isView same pfx (some (.wrapErrorNil m)))
      List.Forall₂.nil
end

theorem any_eq_of_isViewResult (same : Err → Bool) {l : List (Err × Bool)} {c : List error}
    (h : List.Forall₂ (isViewResult same) l c) :
    l.any (fun vr => vr.2) = c.any (errors.IsWith same) := by
  induction h with
  | nil => rfl
  | cons hab _ ih => rw [List.any_cons, List.any_cons, hab.2, ih]

/-- The loop of `errors.Is` on a `*groupError` for any target, as the standard library writes
it: the comparison, the method `Is`, then every element of `g.Unwrap() = g.Collection()`. -/
theorem errors.isWith_groupError (same : Err → Bool) (pfx : String) (errs : List error) :
    errors.isWith same (.groupError pfx errs)
      = (same (.groupError pfx errs) || groupError.IsWith same errs
          || (groupError.Collection pfx errs).any (errors.IsWith same)) := by
  rw [errors.isWith, any_eq_of_isViewResult same (groupError.viewsIsWith_eq same pfx errs)]

theorem plainAt_Errorf (a : Nat) (pfx : String) (x : error) : plainAt a (Errorf pfx x) = false := by
  cases x <;> rfl

mutual
/-- The matching of a plain target is the general matching with the comparison `plainAt`. -/
theorem errors.is_eq_isWith (a : Nat) :
    ∀ e : Err, errors.is e a = errors.isWith (plainAt a) e
  | .errorString addr s => by simp [errors.is, errors.isWith, plainAt]
  | .wrapError m x => by
    simp [errors.is, errors.isWith, plainAt, errors.is_eq_isWith a x]
  | .wrapErrorNil m => by simp [errors.is, errors.isWith, plainAt]
  | .custom m c => by simp [errors.is, errors.isWith, plainAt]
  | .groupError pfx errs => by
    rw [errors.is, errors.isWith, groupError.Is_eq_IsWith a errs,
      groupError.unwrapIs_eq_viewsIsWith a pfx errs]
    simp [plainAt]
theorem groupError.Is_eq_IsWith (a : Nat) :
    ∀ errs : List (Option Err), groupError.Is errs a = groupError.IsWith (plainAt a) errs
  | [] => rfl
  | none :: rest => by
    simp [groupError.Is, groupError.IsWith, errors.Is, errors.IsWith,
      groupError.Is_eq_IsWith a rest]
  | some e :: rest => by
    simp [groupError.Is, groupError.IsWith, errors.Is, errors.IsWith,
      errors.is_eq_isWith a e, groupError.Is_eq_IsWith a rest]
theorem groupError.unwrapIs_eq_viewsIsWith (a : Nat) (pfx : String) :
    ∀ errs : List (Option Err),
      groupError.unwrapIs errs a
        = (groupError.viewsIsWith (plainAt a) pfx errs).any (fun vr => vr.2)
  | [] => rfl
  | err :: rest => by
    rw [groupError.unwrapIs, groupError.viewsIsWith, List.any_append,
      groupError.unwrapIsStep_eq_viewsIsWith a pfx err,
      groupError.unwrapIs_eq_viewsIsWith a pfx rest]
theorem groupError.unwrapIsStep_eq_viewsIsWith (a : Nat) (pfx : String) :
    ∀ err : Option Err,
      groupError.unwrapIsStep err a
        = (groupError.viewsIsWithStep (plainAt a) pfx err).any (fun vr => vr.2)
  | none => by
    simp [groupError.unwrapIsStep, groupError.viewsIsWithStep, isView, plainAt_Errorf]
  | some (.groupError q fs) => by
    rw [groupError.unwrapIsStep, groupError.viewsIsWithStep,
      groupError.unwrapIs_eq_viewsIsWith a q fs]
    simp [isView, plainAt_Errorf, List.any_map, Function.comp_def]
  | some (.custom m c) => by
    rw [groupError.unwrapIsStep, groupError.viewsIsWithStep,
      groupError.Is_eq_rawViewsIsWith a pfx c]
  | some (.errorString addr s) => by
    rw [groupError.unwrapIsStep, groupError.viewsIsWithStep]
    simp only [isView, plainAt_Errorf, List.any_cons, List.any_nil, Bool.false_or,
      Bool.or_false]
    simp [errors.isWith, plainAt]
  | some (.wrapError m x) => by
    rw [groupError.unwrapIsStep, groupError.viewsIsWithStep]
    simp only [isView, plainAt_Errorf, List.any_cons, List.any_nil, Bool.false_or,
      Bool.or_false]
    simp [errors.isWith, plainAt, errors.is_eq_isWith a x]
  | some (.wrapErrorNil m) => by
    rw [groupError.unwrapIsStep, groupError.viewsIsWithStep]
    simp only [isView, plainAt_Errorf, List.any_cons, List.any_nil, Bool.false_or,
      Bool.or_false]
    simp [errors.isWith, plainAt]
theorem groupError.Is_eq_rawViewsIsWith (a : Nat) (pfx : String) :
    ∀ c : List (Option Err),
      groupError.Is c a = (groupError.rawViewsIsWith (plainAt a) pfx c).any (fun vr => vr.2)
  | [] => rfl
  | none :: rest => by
    simp [groupError.Is, groupError.rawViewsIsWith, isView, plainAt_Errorf, errors.Is,
      errors.IsWith, groupError.Is_eq_rawViewsIsWith a pfx rest]
  | some e :: rest => by
    simp [groupError.Is, groupError.rawViewsIsWith, isView, plainAt_Errorf, errors.Is,
      errors.IsWith, errors.is_eq_isWith a e, groupError.Is_eq_rawViewsIsWith a pfx rest]
end

/-! ## The flattened elements are the leaves, wrapped in views -/

/-- An error matches itself. -/
theorem errors.isWith_self (same : Err → Bool) (e : Err) (h : same e = true) :
    errors.isWith same e = true := by
  cases e <;> simp [errors.isWith, h]

/-- A leaf wrapped in views matches the leaf. -/
theorem errors.isWith_wrapViews_self (same : Err → Bool) (leaf : Err) (h : same leaf = true) :
    ∀ ps : List String, errors.isWith same (wrapViews ps leaf) = true
  | [] => errors.isWith_self same leaf h
  | p :: ps => by
    have := errors.IsWith_Errorf same p (some (wrapViews ps leaf))
    rw [errors.IsWith, errors.IsWith] at this
    rw [wrapViews, this, errors.isWith_wrapViews_self same leaf h ps, Bool.or_true]

/-- A leaf wrapped in views, none of which is the target, matches what the leaf matches. -/
theorem errors.isWith_wrapViews (same : Err → Bool) (leaf : Err) :
    ∀ ps : List String, (∀ v ∈ viewsOf ps leaf, same v = false) →
      errors.isWith same (wrapViews ps leaf) = errors.isWith same leaf
  | [], _ => rfl
  | p :: ps, h => by
    have hv : same (wrapViews (p :: ps) leaf) = false :=
      h _ (by rw [viewsOf]; exact List.mem_cons_self _ _)
    have hrest : ∀ v ∈ viewsOf ps leaf, same v = false :=
      fun v hvm => h v (by rw [viewsOf]; exact List.mem_cons_of_mem _ hvm)
    have := errors.IsWith_Errorf same p (some (wrapViews ps leaf))
    rw [errors.IsWith, errors.IsWith] at this
    rw [wrapViews] at hv
    rw [wrapViews, this, hv, Bool.false_or, errors.isWith_wrapViews same leaf ps hrest]

/-- A leaf wrapped in views matches the plain targets that the leaf matches. -/
theorem errors.is_wrapViews (leaf : Err) (target : Nat) :
    ∀ ps : List String, errors.is (wrapViews ps leaf) target = errors.is leaf target
  | [] => rfl
  | p :: ps => by
    have := errors.Is_Errorf p (some (wrapViews ps leaf)) target
    rw [errors.Is, errors.Is] at this
    rw [wrapViews, this, errors.is_wrapViews leaf target ps]

theorem isViewOf_Errorf (pfx : String) {x : error} {leaf : Err} (h : isViewOf x leaf) :
    isViewOf (some (Errorf pfx x)) leaf := by
  obtain ⟨ps, rfl⟩ := h
  exact ⟨pfx :: ps, rfl⟩

theorem isViewOf_map_Errorf (pfx : String) {l : List error} {leaves : List Err}
    (h : List.Forall₂ isViewOf l leaves) :
    List.Forall₂ isViewOf (l.map (fun x => some (Errorf pfx x))) leaves := by
  rw [List.forall₂_map_left_iff]
  exact h.imp (fun _ _ hab => isViewOf_Errorf pfx hab)

mutual
/-- On built members the elements of `g.Collection()` are, in order, the leaves wrapped in
views. -/
theorem groupError.members_isViewOf (pfx : String) :
    ∀ errs : List (Option Err), builtAll errs = true →
      List.Forall₂ isViewOf (groupError.Collection pfx errs) (leavesAll errs)
  | [], _ => List.Forall₂.nil
  | none :: _, h => by simp [builtAll] at h
  | some e :: rest, h => by
    simp only [builtAll, Bool.and_eq_true] at h
    rw [groupError.Collection, leavesAll]
    exact List.rel_append (groupError.collectionStep_isViewOf pfx e h.1)
      (groupError.members_isViewOf pfx rest h.2)
theorem groupError.collectionStep_isViewOf (pfx : String) :
    ∀ e : Err, e.built = true →
      List.Forall₂ isViewOf (groupError.collectionStep pfx (some e)) (Err.leaves e)
  | .errorString a s, _ => List.Forall₂.cons ⟨[pfx], rfl⟩ List.Forall₂.nil
  | .wrapError m x, _ => List.Forall₂.cons ⟨[pfx], rfl⟩ List.Forall₂.nil
  | .wrapErrorNil m, _ => List.Forall₂.cons ⟨[pfx], rfl⟩ List.Forall₂.nil
  | .custom _ _, h => by simp [Err.built] at h
  | .groupError q fs, h => by
    simp only [Err.built, Bool.and_eq_true] at h
    rw [groupError.collectionStep, Err.assertCollection, Err.leaves]
    exact isViewOf_map_Errorf pfx (groupError.members_isViewOf q fs h.2)
end

theorem Collection_isViewOf (t : Err) (h : t.built = true) :
    List.Forall₂ isViewOf (Collection (some t)) t.leaves := by
  cases t with
  | errorString a s => exact List.Forall₂.cons ⟨[], rfl⟩ List.Forall₂.nil
  | wrapError m e => exact List.Forall₂.cons ⟨[], rfl⟩ List.Forall₂.nil
  | wrapErrorNil m => exact List.Forall₂.cons ⟨[], rfl⟩ List.Forall₂.nil
  | custom m c => simp [Err.built] at h
  | groupError pfx errors =>
    simp only [Err.built, Bool.and_eq_true] at h
    rw [Collection, Collection.nonNil, Err.leaves]
    exact groupError.members_isViewOf pfx errors h.2

/-- C10, as stated, fails when a leaf wraps another leaf: in `Join(l1, w)` with
`w = fmt.Errorf("x: %w", l1)` the leaves are `l1` and `w`, two different errors, and the second
flattened element, which comes from `w`, matches `l1` (the plain error at address 1). -/
theorem Collection_identity_counterexample :
    Join [some (.errorString (some 1) "EOF"),
        some (Errorf "x: " (some (.errorString (some 1) "EOF")))]
      = some (.groupError "" [some (.errorString (some 1) "EOF"),
          some (.wrapError "x: EOF" (.errorString (some 1) "EOF"))]) ∧
    (Err.groupError "" [some (.errorString (some 1) "EOF"),
        some (.wrapError "x: EOF" (.errorString (some 1) "EOF"))]).built = true ∧
    (Err.groupError "" [some (.errorString (some 1) "EOF"),
        some (.wrapError "x: EOF" (.errorString (some 1) "EOF"))]).leaves
      = [.errorString (some 1) "EOF", .wrapError "x: EOF" (.errorString (some 1) "EOF")] ∧
    Err.wrapError "x: EOF" (.errorString (some 1) "EOF") ≠ .errorString (some 1) "EOF" ∧
    Collection (some (.groupError "" [some (.errorString (some 1) "EOF"),
        some (.wrapError "x: EOF" (.errorString (some 1) "EOF"))]))
      = [some (.wrapError "EOF" (.errorString (some 1) "EOF")),
          some (.wrapError "x: EOF" (.wrapError "x: EOF" (.errorString (some 1) "EOF")))] ∧
    errors.Is (some (.wrapError "x: EOF" (.wrapError "x: EOF" (.errorString (some 1) "EOF")))) 1
      = true :=
  ⟨rfl, rfl, rfl, fun h => Err.noConfusion h, rfl, rfl⟩

/-- C10 (amended): for every tree built from leaf errors and groups made by `Prefix` or `Join`,
`Collection(t)` has as many elements as the tree has leaves, and the i-th element is the i-th
leaf wrapped in views of `fmt.Errorf`. So the i-th element matches the i-th leaf, and it
matches any target that is none of those views exactly when the leaf itself matches it: a
leaf that is a different error is matched only when the i-th leaf unwraps to it, and never
when the i-th leaf is a plain error (a value of `errors.New`). -/
theorem Collection_keeps_identity (t : Err) (h : t.built = true) :
    (Collection (some t)).length = t.leaves.length ∧
    List.Forall₂
      (fun el leaf =>
        (∃ ps, el = some (wrapViews ps leaf) ∧
          (∀ same : Err → Bool, (∀ v ∈ viewsOf ps leaf, same v = false) →
            errors.IsWith same el = errors.isWith same leaf) ∧
          (∀ a s, leaf = Err.errorString a s →
            ∀ same : Err → Bool, (∀ v ∈ viewsOf ps leaf, same v = false) →
              errors.IsWith same el = same leaf)) ∧
        (∀ same : Err → Bool, same leaf = true → errors.IsWith same el = true) ∧
        (∀ target : Nat, errors.Is el target = errors.is leaf target) ∧
        (∀ a s, leaf = Err.errorString (some a) s →
          ∀ b : Nat, errors.Is el b = true ↔ b = a))
      (Collection (some t)) t.leaves := by
  have hall := Collection_isViewOf t h
  refine ⟨hall.length_eq, hall.imp ?_⟩
  rintro el leaf ⟨ps, rfl⟩
  have hplain : ∀ target : Nat,
      errors.Is (some (wrapViews ps leaf)) target = errors.is leaf target :=
    fun target => errors.is_wrapViews leaf target ps
  refine ⟨⟨ps, rfl, fun same hs => errors.isWith_wrapViews same leaf ps hs, ?_⟩,
    fun same hs => errors.isWith_wrapViews_self same leaf hs ps, hplain, ?_⟩
  · intro a s hleaf same hs
    rw [errors.IsWith, errors.isWith_wrapViews same leaf ps hs, hleaf, errors.isWith]
  · intro a s hleaf b
    rw [hplain b, hleaf, errors.is]
    simp only [beq_iff_eq, Option.some.injEq]
    exact eq_comm

/-- C10 (amended) at `Join(l1, w)` with `w = fmt.Errorf("x: %w", l1)`, the tree of the
counterexample: the second element is `w` in one view, so it matches `w`, and it matches `l1`
because `w` unwraps to `l1`. -/
theorem Collection_keeps_identity_witness :
    wrapperExample.built = true ∧
    (Collection (some wrapperExample)).length = wrapperExample.leaves.length ∧
    List.Forall₂
      (fun el leaf =>
        (∃ ps, el = some (wrapViews ps leaf) ∧
          (∀ same : Err → Bool, (∀ v ∈ viewsOf ps leaf, same v = false) →
            errors.IsWith same el = errors.isWith same leaf) ∧
          (∀ a s, leaf = Err.errorString a s →
            ∀ same : Err → Bool, (∀ v ∈ viewsOf ps leaf, same v = false) →
              errors.IsWith same el = same leaf)) ∧
        (∀ same : Err → Bool, same leaf = true → errors.IsWith same el = true) ∧
        (∀ target : Nat, errors.Is el target = errors.is leaf target) ∧
        (∀ a s, leaf = Err.errorString (some a) s →
          ∀ b : Nat, errors.Is el b = true ↔ b = a))
      (Collection (some wrapperExample)) wrapperExample.leaves :=
  ⟨rfl, Collection_keeps_identity wrapperExample rfl⟩

/-! ## Third-party groups -/

theorem CollectionAll_eq_flatMap (c : List error) : CollectionAll c = c.flatMap Collection := by
  induction c with
  | nil => rfl
  | cons x t ih => simp [CollectionAll, ih]

/-- C11: an error of another package that has the method `Collection` is expanded when it is
passed to the function `Collection`: the result is the concatenation, in order, of
`Collection(m)` over the members `m` that its method returns. A nil member contributes nothing
and no prefix is added. The wrapper of the test around `Prefix("my group: ", e1, e2)` flattens
to the two messages of the group. -/
theorem Collection_custom (msg : String) (c : List error) :
    Collection (some (.custom msg c)) = c.flatMap Collection ∧
    Collection (some (.custom msg (none :: c))) = Collection (some (.custom msg c)) ∧
    messages (Collection (some (.custom "my group: error #1\nmy group: error #2"
        [Prefix "my group: " [some (.errorString (some 1) "error #1"),
          some (.errorString (some 2) "error #2")]])))
      = some ["my group: error #1", "my group: error #2"] := by
  refine ⟨?_, ?_, by decide⟩
  · rw [Collection, Collection.nonNil, CollectionAll_eq_flatMap]
  · simp [Collection, Collection.nonNil, CollectionAll]

/-- C12 fails on the code. For the wrapper `T` of the test around `G = Prefix("q: ", a, b)`,
whose method `Collection` returns `[G]`, `Collection(Prefix("p: ", T))` has one element, whose
message is the two lines of `G` with `p: ` before the first line only, while
`Collection(Prefix("p: ", Join(G)))` has the two elements `p: q: a` and `p: q: b`. -/
theorem Collection_Prefix_custom_diverges :
    messages (Collection (Prefix "p: " [some (.custom "q: a\nq: b"
        [Prefix "q: " [some (.errorString (some 1) "a"), some (.errorString (some 2) "b")]])]))
      = some ["p: q: a\nq: b"] ∧
    messages (Collection (Prefix "p: " [Join
        [Prefix "q: " [some (.errorString (some 1) "a"), some (.errorString (some 2) "b")]]]))
      = some ["p: q: a", "p: q: b"] ∧
    (Err.groupError "q: " [some (.errorString (some 1) "a"),
        some (.errorString (some 2) "b")]).Error = "q: a\nq: b" := by
  refine ⟨by decide, by decide, by decide⟩

/-! ## The flattened sequence holds leaves only -/

theorem groupError.mem_collectionStep {pfx : String} {err y : error}
    (h : y ∈ groupError.collectionStep pfx err) : ∃ x, y = some (Errorf pfx x) := by
  cases err with
  | none =>
    simp only [groupError.collectionStep, List.mem_singleton] at h
    exact ⟨none, h⟩
  | some e =>
    rw [groupError.collectionStep] at h
    cases hc : Err.assertCollection e with
    | none =>
      simp only [hc, List.mem_singleton] at h
      exact ⟨some e, h⟩
    | some c =>
      simp only [hc, List.mem_map] at h
      obtain ⟨x, -, hx⟩ := h
      exact ⟨x, hx.symm⟩

/-- Every element of `g.Collection()` is a result of `fmt.Errorf`. -/
theorem groupError.mem_Collection {pfx : String} {errs : List error} {y : error}
    (h : y ∈ groupError.Collection pfx errs) : ∃ x, y = some (Errorf pfx x) := by
  induction errs with
  | nil => simp [groupError.Collection] at h
  | cons e t ih =>
    rw [groupError.Collection, List.mem_append] at h
    rcases h with h | h
    · exact groupError.mem_collectionStep h
    · exact ih h

mutual
theorem Collection_isLeaf : ∀ (x : Option Err) (y : error), y ∈ Collection x → isLeaf y
  | none, y, h => by simp [Collection] at h
  | some e, y, h => by
    rw [Collection] at h
    exact Collection_nonNil_isLeaf e y h
theorem Collection_nonNil_isLeaf : ∀ (e : Err) (y : error), y ∈ Collection.nonNil e → isLeaf y
  | .errorString a s, y, h => by
    simp only [Collection.nonNil, List.mem_singleton] at h
    exact ⟨_, h, rfl⟩
  | .wrapError m x, y, h => by
    simp only [Collection.nonNil, List.mem_singleton] at h
    exact ⟨_, h, rfl⟩
  | .wrapErrorNil m, y, h => by
    simp only [Collection.nonNil, List.mem_singleton] at h
    exact ⟨_, h, rfl⟩
  | .groupError pfx errs, y, h => by
    rw [Collection.nonNil] at h
    obtain ⟨x, hx⟩ := groupError.mem_Collection h
    exact ⟨_, hx, Errorf_assertCollection pfx x⟩
  | .custom m c, y, h => by
    rw [Collection.nonNil] at h
    exact CollectionAll_isLeaf c y h
theorem CollectionAll_isLeaf : ∀ (c : List (Option Err)) (y : error), y ∈ CollectionAll c → isLeaf y
  | [], y, h => by simp [CollectionAll] at h
  | x :: rest, y, h => by
    rw [CollectionAll, List.mem_append] at h
    rcases h with h | h
    · exact Collection_isLeaf x y h
    · exact CollectionAll_isLeaf rest y h
end

theorem Collection_of_isLeaf {y : error} (h : isLeaf y) : Collection y = [y] := by
  obtain ⟨e, rfl, he⟩ := h
  rw [Collection_eq, he]

theorem CollectionAll_of_isLeaf (l : List error) (h : ∀ y ∈ l, isLeaf y) :
    CollectionAll l = l := by
  induction l with
  | nil => rfl
  | cons y t ih =>
    rw [CollectionAll, Collection_of_isLeaf (h y (List.mem_cons_self _ _)),
      ih (fun z hz => h z (List.mem_cons_of_mem _ hz))]
    rfl

/-- C19: for every error (nil, a leaf, a group made by `Prefix` or `Join`, or a third-party
group whose collection may hold nils and nested groups), every element of `Collection(e)` is
non-nil and has no method `Collection`; so `Collection(x) = [x]` for every element `x`, and
concatenating `Collection(x)` over the elements gives `Collection(e)` again. -/
theorem Collection_leaves_only (e : error) :
    (∀ x ∈ Collection e, ∃ y, x = some y ∧ y.assertCollection = none) ∧
    (∀ x ∈ Collection e, Collection x = [x]) ∧
    (Collection e).flatMap Collection = Collection e := by
  have h : ∀ x ∈ Collection e, isLeaf x := Collection_isLeaf e
  refine ⟨h, fun x hx => Collection_of_isLeaf (h x hx), ?_⟩
  rw [← CollectionAll_eq_flatMap]
  exact CollectionAll_of_isLeaf _ h

/-! ## Identity matching on the unflattened tree -/

theorem any_of_sameMatches {l : List error} {leaves : List Err} (target : Nat)
    (h : List.Forall₂ sameMatches l leaves) :
    l.any (fun x => errors.Is x target) = leaves.any (fun leaf => errors.is leaf target) := by
  induction h with
  | nil => rfl
  | cons hab _ ih => simp [hab target, ih]

/-- On built members the loop over `g.Unwrap()` finds what the leaves match. -/
theorem groupError.unwrapIs_eq_leaves (errs : List error) (target : Nat)
    (h : builtAll errs = true) :
    groupError.unwrapIs errs target
      = (leavesAll errs).any (fun leaf => errors.is leaf target) := by
  rw [groupError.unwrapIs_eq "" target errs]
  exact any_of_sameMatches target (groupError.members_sameMatches "" errs h)

mutual
/-- On built members the method `Is` finds what the leaves match. -/
theorem groupError.Is_eq_leaves (target : Nat) :
    ∀ errs : List (Option Err), builtAll errs = true →
      groupError.Is errs target = (leavesAll errs).any (fun leaf => errors.is leaf target)
  | [], _ => rfl
  | none :: _, h => by simp [builtAll] at h
  | some e :: rest, h => by
    simp only [builtAll, Bool.and_eq_true] at h
    rw [groupError.Is, errors.Is, leavesAll, List.any_append,
      errors.is_eq_leaves target e h.1, groupError.Is_eq_leaves target rest h.2]
theorem errors.is_eq_leaves (target : Nat) :
    ∀ e : Err, e.built = true →
      errors.is e target = (Err.leaves e).any (fun leaf => errors.is leaf target)
  | .errorString a s, _ => by simp [Err.leaves]
  | .wrapError m x, _ => by simp [Err.leaves]
  | .wrapErrorNil m, _ => by simp [Err.leaves]
  | .custom _ _, h => by simp [Err.built] at h
  | .groupError p fs, h => by
    simp only [Err.built, Bool.and_eq_true] at h
    rw [errors.is, groupError.Is_eq_leaves target fs h.2,
      groupError.unwrapIs_eq_leaves fs target h.2, Err.leaves, Bool.or_self]
end

mutual
theorem plainAll_built : ∀ errs : List (Option Err), plainAll errs = true → builtAll errs = true
  | [], _ => rfl
  | none :: _, h => by simp [plainAll] at h
  | some e :: rest, h => by
    simp only [plainAll, Bool.and_eq_true] at h
    simp [builtAll, plain_built e h.1, plainAll_built rest h.2]
theorem plain_built : ∀ e : Err, e.plain = true → e.built = true
  | .errorString _ _, _ => rfl
  | .wrapError _ _, h => by simp [Err.plain] at h
  | .wrapErrorNil _, h => by simp [Err.plain] at h
  | .custom _ _, h => by simp [Err.plain] at h
  | .groupError p fs, h => by
    simp only [Err.plain, Bool.and_eq_true] at h
    simp only [Err.built, Bool.and_eq_true]
    exact ⟨h.1, plainAll_built fs h.2⟩
end

mutual
/-- In a tree over plain leaf errors every leaf is a held value of `errors.New`. -/
theorem plainAll_leaves : ∀ errs : List (Option Err), plainAll errs = true →
    ∀ leaf ∈ leavesAll errs, ∃ a s, leaf = Err.errorString (some a) s
  | [], _, leaf, hl => by simp [leavesAll] at hl
  | none :: _, h, _, _ => by simp [plainAll] at h
  | some e :: rest, h, leaf, hl => by
    simp only [plainAll, Bool.and_eq_true] at h
    rw [leavesAll, List.mem_append] at hl
    rcases hl with hl | hl
    · exact plain_leaves e h.1 leaf hl
    · exact plainAll_leaves rest h.2 leaf hl
theorem plain_leaves : ∀ e : Err, e.plain = true →
    ∀ leaf ∈ Err.leaves e, ∃ a s, leaf = Err.errorString (some a) s
  | .errorString (some a) s, _, leaf, hl => by
    simp only [Err.leaves, List.mem_singleton] at hl
    exact ⟨a, s, hl⟩
  | .errorString none _, h, _, _ => by simp [Err.plain] at h
  | .wrapError _ _, h, _, _ => by simp [Err.plain] at h
  | .wrapErrorNil _, h, _, _ => by simp [Err.plain] at h
  | .custom _ _, h, _, _ => by simp [Err.plain] at h
  | .groupError p fs, h, leaf, hl => by
    simp only [Err.plain, Bool.and_eq_true] at h
    rw [Err.leaves] at hl
    exact plainAll_leaves fs h.2 leaf hl
end

/-- Among plain leaves, some leaf matches the target exactly when the target is a leaf. -/
theorem any_is_plain_leaves (leaves : List Err) (target : Nat)
    (h : ∀ leaf ∈ leaves, ∃ a s, leaf = Err.errorString (some a) s) :
    leaves.any (fun leaf => errors.is leaf target) = true
      ↔ ∃ s, Err.errorString (some target) s ∈ leaves := by
  rw [List.any_eq_true]
  constructor
  · rintro ⟨leaf, hmem, his⟩
    obtain ⟨a, s, rfl⟩ := h leaf hmem
    simp only [errors.is, beq_iff_eq, Option.some.injEq] at his
    subst his
    exact ⟨s, hmem⟩
  · rintro ⟨s, hmem⟩
    exact ⟨_, hmem, by simp [errors.is]⟩

/-- C13: for every group made by `Prefix` or `Join` over plain leaf errors, at any nesting
depth and with any prefixes, and every plain target, `errors.Is(g, t)` is true if and only if
the target is one of the leaves of the tree under `g`, and so is the method `g.Is(t)`. -/
theorem Is_iff_leaf (pfx : String) (errs : List error) (target : Nat)
    (h : (Err.groupError pfx errs).plain = true) :
    (errors.Is (some (.groupError pfx errs)) target = true
      ↔ ∃ s, Err.errorString (some target) s ∈ (Err.groupError pfx errs).leaves) ∧
    (groupError.Is errs target = true
      ↔ ∃ s, Err.errorString (some target) s ∈ (Err.groupError pfx errs).leaves) := by
  have hb := plain_built _ h
  have hl := plain_leaves _ h
  have hbs : builtAll errs = true := by
    simp only [Err.built, Bool.and_eq_true] at hb
    exact hb.2
  constructor
  · rw [errors.Is, errors.is_eq_leaves target _ hb]
    exact any_is_plain_leaves _ target hl
  · rw [groupError.Is_eq_leaves target errs hbs]
    exact any_is_plain_leaves _ target hl

/-- C13 at the tree of `Test_groupError_Unwrap` without the path error: it matches `io.EOF`,
`io.ErrNoProgress` and `io.ErrUnexpectedEOF` (addresses 1, 2, 3) and not `io.ErrClosedPipe`
(address 4). -/
theorem Is_iff_leaf_witness :
    unwrapTest.plain = true ∧
    errors.Is (some unwrapTest) 1 = true ∧
    errors.Is (some unwrapTest) 2 = true ∧
    errors.Is (some unwrapTest) 3 = true ∧
    errors.Is (some unwrapTest) 4 = false ∧
    ¬ ∃ s, Err.errorString (some 4) s ∈ unwrapTest.leaves :=
  ⟨rfl,
    (Is_iff_leaf "errors: " [some unwrapExample] 1 rfl).1.2
      ⟨"EOF", List.mem_cons_self (Err.errorString (some 1) "EOF") _⟩,
    rfl, rfl, rfl,
    fun hex => Bool.noConfusion
      ((Is_iff_leaf "errors: " [some unwrapExample] 4 rfl).1.2 hex)⟩

/-- C20: for every group made by `Prefix` or `Join` from leaf errors and such groups, and
every plain target, the method `g.Is(t)` is true if and only if some element `x` of
`Collection(g)` satisfies `errors.Is(x, t)`. -/
theorem Is_iff_flattened (pfx : String) (errs : List error) (target : Nat)
    (h : (Err.groupError pfx errs).built = true) :
    groupError.Is errs target = true
      ↔ ∃ x ∈ Collection (some (.groupError pfx errs)), errors.Is x target = true := by
  have hbs : builtAll errs = true := by
    simp only [Err.built, Bool.and_eq_true] at h
    exact h.2
  rw [groupError.Is_eq_leaves target errs hbs, ← groupError.unwrapIs_eq_leaves errs target hbs,
    groupError.unwrapIs_eq pfx target errs, List.any_eq_true, Collection, Collection.nonNil]

/-- C20 at the tree of `Test_groupError_Unwrap` without the path error and the target
`io.ErrNoProgress`. -/
theorem Is_iff_flattened_witness :
    unwrapTest.built = true ∧
    (groupError.Is [some unwrapExample] 2 = true
      ↔ ∃ x ∈ Collection (some unwrapTest), errors.Is x 2 = true) ∧
    groupError.Is [some unwrapExample] 2 = true :=
  ⟨rfl, Is_iff_flattened "errors: " [some unwrapExample] 2 rfl, rfl⟩

/-! ## No input of the builder is dropped -/

mutual
theorem groupError.Collection_ne_nil (pfx : String) :
    ∀ errs : List (Option Err), contributesAny errs = true →
      groupError.Collection pfx errs ≠ []
  | [], h => by simp [contributesAny] at h
  | none :: rest, _ => by simp [groupError.Collection, groupError.collectionStep]
  | some e :: rest, h => by
    simp only [contributesAny, Bool.or_eq_true] at h
    rw [groupError.Collection]
    rcases h with h | h
    · exact fun hnil => groupError.collectionStep_ne_nil pfx e h (List.append_eq_nil.1 hnil).1
    · exact fun hnil => groupError.Collection_ne_nil pfx rest h (List.append_eq_nil.1 hnil).2
theorem groupError.collectionStep_ne_nil (pfx : String) :
    ∀ e : Err, e.contributes = true → groupError.collectionStep pfx (some e) ≠ []
  | .errorString _ _, _ => by simp [groupError.collectionStep, Err.assertCollection]
  | .wrapError _ _, _ => by simp [groupError.collectionStep, Err.assertCollection]
  | .wrapErrorNil _, _ => by simp [groupError.collectionStep, Err.assertCollection]
  | .custom _ c, h => by
    cases c with
    | nil => simp [Err.contributes] at h
    | cons x t => simp [groupError.collectionStep, Err.assertCollection]
  | .groupError q fs, h => by
    rw [Err.contributes] at h
    have := groupError.Collection_ne_nil q fs h
    simpa [groupError.collectionStep, Err.assertCollection] using this
end

mutual
/-- A tree built from leaves and groups made by `Prefix` contributes. -/
theorem builtAll_contributesAny : ∀ errs : List (Option Err),
    errs ≠ [] → builtAll errs = true → contributesAny errs = true
  | [], h, _ => absurd rfl h
  | none :: _, _, _ => rfl
  | some e :: rest, _, h => by
    simp only [builtAll, Bool.and_eq_true] at h
    simp [contributesAny, built_contributes e h.1]
theorem built_contributes : ∀ e : Err, e.built = true → e.contributes = true
  | .errorString _ _, _ => rfl
  | .wrapError _ _, _ => rfl
  | .wrapErrorNil _, _ => rfl
  | .custom _ _, h => by simp [Err.built] at h
  | .groupError q fs, h => by
    simp only [Err.built, Bool.and_eq_true, Bool.not_eq_eq_eq_not, Bool.not_true,
      List.isEmpty_eq_false] at h
    rw [Err.contributes]
    exact builtAll_contributesAny fs h.1 h.2
end

/-- The elements that the loop appends for a non-nil input are in the result. -/
theorem groupError.collectionStep_subset (pfx : String) (errs : List error) (e : Err)
    (he : some e ∈ errs) :
    ∀ x ∈ groupError.collectionStep pfx (some e),
      x ∈ groupError.Collection pfx (filterNonNil errs) := by
  induction errs with
  | nil => simp at he
  | cons y t ih =>
    intro x hx
    cases y with
    | none =>
      rw [filterNonNil]
      exact ih (by simpa using he) x hx
    | some f =>
      rw [filterNonNil, groupError.Collection, List.mem_append]
      rcases List.mem_cons.1 he with h | h
      · left
        cases h
        exact hx
      · exact Or.inr (ih h x hx)

theorem countNonNil_ne_zero_of_mem {errs : List error} {e : Err} (he : some e ∈ errs) :
    countNonNil errs ≠ 0 := by
  intro h0
  have := (countNonNil_eq_zero_iff errs).1 h0 _ he
  cases this

/-- C15, as stated, fails for a third-party error whose method `Collection` returns no
element: `Prefix("p: ", T)` is non-nil, flattens to the empty sequence and renders as the
empty message. -/
theorem Collection_Prefix_swallows_counterexample :
    Prefix "p: " [some (.custom "boom" [])]
      = some (.groupError "p: " [some (.custom "boom" [])]) ∧
    groupError.collectionStep "p: " (some (.custom "boom" [])) = [] ∧
    Collection (Prefix "p: " [some (.custom "boom" [])]) = [] ∧
    (Err.groupError "p: " [some (.custom "boom" [])]).Error = "" :=
  ⟨rfl, rfl, rfl, by decide⟩

mutual
/-- A contributing member gives an element that derives from it. -/
theorem groupError.collectionStep_derives (pfx : String) :
    ∀ e : Err, e.contributes = true →
      ∃ v, some v ∈ groupError.collectionStep pfx (some e) ∧ derivesFrom pfx v e
  | .errorString a s, _ =>
    ⟨_, by simp [groupError.collectionStep, Err.assertCollection],
      derivesFrom.errorString pfx a s⟩
  | .wrapError m x, _ =>
    ⟨_, by simp [groupError.collectionStep, Err.assertCollection],
      derivesFrom.wrapError pfx m x⟩
  | .wrapErrorNil m, _ =>
    ⟨_, by simp [groupError.collectionStep, Err.assertCollection],
      derivesFrom.wrapErrorNil pfx m⟩
  | .custom msg [], h => by simp [Err.contributes] at h
  | .custom msg (x :: t), _ =>
    ⟨Errorf pfx x, by simp [groupError.collectionStep, Err.assertCollection],
      derivesFrom.custom pfx msg (x :: t) x (List.mem_cons_self _ _)⟩
  | .groupError q fs, h => by
    rw [Err.contributes] at h
    obtain ⟨v, hv, hd⟩ := groupError.Collection_derives q fs h
    refine ⟨Errorf pfx (some v), ?_, ?_⟩
    · rw [groupError.collectionStep, Err.assertCollection]
      exact List.mem_map.2 ⟨some v, hv, rfl⟩
    · rcases hd with ⟨m, hm, hdm⟩ | ⟨hn, rfl⟩
      · exact derivesFrom.member pfx q fs m v hm hdm
      · exact derivesFrom.nilMember pfx q fs hn
/-- Contributing members give an element of `g.Collection()` that derives from one of them, or
the view of a nil member. -/
theorem groupError.Collection_derives (q : String) :
    ∀ fs : List (Option Err), contributesAny fs = true →
      ∃ v, some v ∈ groupError.Collection q fs ∧
        ((∃ m, some m ∈ fs ∧ derivesFrom q v m) ∨ (none ∈ fs ∧ v = Errorf q none))
  | [], h => by simp [contributesAny] at h
  | none :: rest, _ =>
    ⟨Errorf q none, by simp [groupError.Collection, groupError.collectionStep],
      Or.inr ⟨List.mem_cons_self _ _, rfl⟩⟩
  | some e :: rest, h => by
    simp only [contributesAny, Bool.or_eq_true] at h
    rcases h with h | h
    · obtain ⟨v, hv, hd⟩ := groupError.collectionStep_derives q e h
      refine ⟨v, ?_, Or.inl ⟨e, List.mem_cons_self _ _, hd⟩⟩
      rw [groupError.Collection]
      exact List.mem_append_left _ hv
    · obtain ⟨v, hv, hd⟩ := groupError.Collection_derives q rest h
      refine ⟨v, ?_, ?_⟩
      · rw [groupError.Collection]
        exact List.mem_append_right _ hv
      · rcases hd with ⟨m, hm, hdm⟩ | ⟨hn, hv2⟩
        · exact Or.inl ⟨m, List.mem_cons_of_mem _ hm, hdm⟩
        · exact Or.inr ⟨List.mem_cons_of_mem _ hn, hv2⟩
end

/-- C15 (amended): for every prefix, every sequence and every non-nil element `e` of it that
is a leaf, a third-party group whose method `Collection` returns at least one element, or a
group made by `Prefix` or `Join` with such a member at some depth (`e.contributes`), the
result of `Prefix` is non-nil and `Collection(Prefix(p, E...))` holds an element that derives
from `e`: the prefixed view of `e`, of an element of its collection, or of an element that
derives from one of its members. Every element that the loop of `(*groupError).Collection`
appends for `e` is in the flattened sequence, which is therefore not empty. -/
theorem Collection_Prefix_keeps (pfx : String) (errs : List error) (e : Err)
    (he : some e ∈ errs) (hc : e.contributes = true) :
    ∃ g, Prefix pfx errs = some g ∧
      (∃ v, derivesFrom pfx v e ∧ some v ∈ Collection (some g)) ∧
      groupError.collectionStep pfx (some e) ≠ [] ∧
      (∀ x ∈ groupError.collectionStep pfx (some e), x ∈ Collection (some g)) ∧
      Collection (some g) ≠ [] := by
  have hne := groupError.collectionStep_ne_nil pfx e hc
  have hsub := groupError.collectionStep_subset pfx errs e he
  obtain ⟨v, hv, hd⟩ := groupError.collectionStep_derives pfx e hc
  refine ⟨.groupError pfx (filterNonNil errs), ?_, ⟨v, hd, ?_⟩, hne, ?_, ?_⟩
  · simp [Prefix, countNonNil_ne_zero_of_mem he]
  · rw [Collection, Collection.nonNil]
    exact hsub _ hv
  · rw [Collection, Collection.nonNil]
    exact hsub
  · rw [Collection, Collection.nonNil]
    intro hnil
    have hx := hsub _ hv
    rw [hnil] at hx
    cases hx

/-- C15 (amended) at `Prefix("p: ", nil, Join(a, b))`: the view of the view of `a` derives
from the group and is in the flattened sequence. -/
theorem Collection_Prefix_keeps_witness :
    some (Err.groupError "" [some (.errorString (some 1) "a"),
      some (.errorString (some 2) "b")])
      ∈ [none, some (Err.groupError "" [some (.errorString (some 1) "a"),
          some (.errorString (some 2) "b")])] ∧
    (Err.groupError "" [some (.errorString (some 1) "a"),
      some (.errorString (some 2) "b")]).contributes = true ∧
    derivesFrom "p: " (.wrapError "p: a" (.wrapError "a" (.errorString (some 1) "a")))
      (.groupError "" [some (.errorString (some 1) "a"), some (.errorString (some 2) "b")]) ∧
    Collection (Prefix "p: " [none, some (Err.groupError "" [some (.errorString (some 1) "a"),
          some (.errorString (some 2) "b")])])
      = [some (.wrapError "p: a" (.wrapError "a" (.errorString (some 1) "a"))),
          some (.wrapError "p: b" (.wrapError "b" (.errorString (some 2) "b")))] ∧
    ∃ g, Prefix "p: " [none, some (Err.groupError "" [some (.errorString (some 1) "a"),
          some (.errorString (some 2) "b")])] = some g ∧
      (∃ v, derivesFrom "p: " v (Err.groupError "" [some (.errorString (some 1) "a"),
          some (.errorString (some 2) "b")]) ∧ some v ∈ Collection (some g)) ∧
      groupError.collectionStep "p: " (some (Err.groupError "" [some (.errorString (some 1) "a"),
          some (.errorString (some 2) "b")])) ≠ [] ∧
      (∀ x ∈ groupError.collectionStep "p: " (some (Err.groupError ""
          [some (.errorString (some 1) "a"), some (.errorString (some 2) "b")])),
        x ∈ Collection (some g)) ∧
      Collection (some g) ≠ [] :=
  ⟨List.mem_cons_of_mem _ (List.mem_cons_self _ _), rfl,
    derivesFrom.member "p: " "" _ (.errorString (some 1) "a")
      (.wrapError "a" (.errorString (some 1) "a")) (List.mem_cons_self _ _)
      (derivesFrom.errorString "" (some 1) "a"),
    rfl,
    Collection_Prefix_keeps "p: " _ _ (List.mem_cons_of_mem _ (List.mem_cons_self _ _)) rfl⟩

/-! ## The assertion `EqualErrorGroup` -/

theorem assert.EqualError_length (e : error) (m : String) :
    (assert.EqualError e m).length = if error.Error e ≠ some m then 1 else 0 := by
  cases e with
  | none => simp [assert.EqualError, error.Error]
  | some x =>
    by_cases h : m = x.Error
    · simp [assert.EqualError, error.Error, h]
    · have h2 : ¬ x.Error = m := fun h3 => h h3.symm
      simp [assert.EqualError, error.Error, h, h2]

theorem EqualErrorGroup.loop_eq (errs : List error) (msgs : List String) :
    ∀ (k i : Nat), i + k ≤ errs.length → i + k ≤ msgs.length →
      EqualErrorGroup.loop errs msgs k i
        = some (pairReports (((errs.drop i).zip (msgs.drop i)).take k))
  | 0, i, _, _ => by simp [EqualErrorGroup.loop, pairReports]
  | k + 1, i, he, hm => by
    have hie : i < errs.length := by omega
    have him : i < msgs.length := by omega
    rw [EqualErrorGroup.loop, List.getElem?_eq_getElem hie, List.getElem?_eq_getElem him]
    simp only
    rw [EqualErrorGroup.loop_eq errs msgs k (i + 1) (by omega) (by omega),
      List.drop_eq_getElem_cons hie, List.drop_eq_getElem_cons him]
    simp only [pairReports, List.zip_cons_cons, List.take_succ_cons, List.flatMap_cons,
      Option.map_some']

theorem pairReports_length (l : List (error × String)) :
    (pairReports l).length
      = (l.filter (fun p => decide (error.Error p.1 ≠ some p.2))).length := by
  induction l with
  | nil => rfl
  | cons p t ih =>
    have ih2 : (List.flatMap t (fun p => assert.EqualError p.1 p.2)).length
        = (t.filter (fun p => decide (error.Error p.1 ≠ some p.2))).length := ih
    by_cases h : error.Error p.1 = some p.2
    · simp [pairReports, assert.EqualError_length, h, ih2]
    · simp [pairReports, assert.EqualError_length, h, ih2]
      omega

theorem messages_eq_some_iff (errs : List error) (msgs : List String) :
    messages errs = some msgs
      ↔ errs.length = msgs.length ∧ ∀ p ∈ errs.zip msgs, error.Error p.1 = some p.2 := by
  induction errs generalizing msgs with
  | nil =>
    cases msgs with
    | nil => simp [messages]
    | cons m t => simp [messages]
  | cons e t ih =>
    cases msgs with
    | nil =>
      simp only [messages, List.length_cons, List.length_nil, List.zip_nil_right]
      constructor
      · intro h
        split at h <;> simp at h
      · intro h
        omega
    | cons m ms =>
      cases he : error.Error e with
      | none => simp [messages, he]
      | some x =>
        cases ht : messages t with
        | none =>
          have := (ih ms).not.1 (by simp [ht])
          simp only [messages, he, ht, List.length_cons, List.zip_cons_cons, List.mem_cons,
            forall_eq_or_imp, false_iff, reduceCtorEq]
          intro h
          exact this ⟨by omega, h.2.2⟩
        | some ys =>
          simp only [messages, he, ht, Option.some.injEq, List.cons.injEq, List.length_cons,
            List.zip_cons_cons, List.mem_cons, forall_eq_or_imp]
          have h2 := ih ms
          rw [ht, Option.some.injEq] at h2
          rw [h2]
          constructor
          · rintro ⟨hx, hl, hall⟩
            exact ⟨by omega, hx, hall⟩
          · rintro ⟨hl, hx, hall⟩
            exact ⟨hx, by omega, hall⟩

theorem pairReports_eq_nil_iff (l : List (error × String)) :
    pairReports l = [] ↔ ∀ p ∈ l, error.Error p.1 = some p.2 := by
  rw [← List.length_eq_zero, pairReports_length, List.length_eq_zero, List.filter_eq_nil_iff]
  simp

theorem minLen_le (a : List error) (b : List String) :
    minLen a b ≤ a.length ∧ minLen a b ≤ b.length ∧ (a.zip b).length ≤ minLen a b := by
  unfold minLen
  split <;> simp <;> omega

/-- The reports of `EqualErrorGroup` for a non-empty list of expected messages. -/
theorem EqualErrorGroup_eq (err : error) (msgs : List String) (h : msgs ≠ []) :
    EqualErrorGroup err msgs
      = some (pairReports ((Collection err).zip msgs)
          ++ assert.Len (Collection err).length msgs.length) := by
  have hl : msgs.length ≠ 0 := fun h0 => h (List.length_eq_zero.1 h0)
  obtain ⟨h1, h2, h3⟩ := minLen_le (Collection err) msgs
  rw [EqualErrorGroup, if_neg hl,
    EqualErrorGroup.loop_eq _ _ _ 0 (by omega) (by omega)]
  simp only [List.drop_zero, Option.map_some', List.take_of_length_le h3]

/-- C16: with a non-empty list of expected messages, `EqualErrorGroup` reports one failure for
every index below both lengths at which the flattened message is not the expected one, and one
more when the flattened sequence and the list differ in length; so it reports nothing if and
only if the messages of `Collection(err)` are the expected ones, one by one, with equal
length. -/
theorem EqualErrorGroup_reports (err : error) (msgs : List String) (h : msgs ≠ []) :
    ∃ fs, EqualErrorGroup err msgs = some fs ∧
      fs.length = (mismatches (Collection err) msgs).length
        + (if (Collection err).length ≠ msgs.length then 1 else 0) ∧
      (fs = [] ↔ messages (Collection err) = some msgs) := by
  refine ⟨_, EqualErrorGroup_eq err msgs h, ?_, ?_⟩
  · rw [List.length_append, pairReports_length, mismatches, assert.Len]
    split <;> rfl
  · rw [List.append_eq_nil, pairReports_eq_nil_iff, messages_eq_some_iff, assert.Len]
    constructor
    · rintro ⟨hp, hlen⟩
      refine ⟨?_, hp⟩
      by_contra hne
      simp [hne] at hlen
    · rintro ⟨hlen, hp⟩
      exact ⟨hp, by simp [hlen]⟩

/-- C16 at `Join(ErrClosed, ErrInvalid, ErrExist)` against the two messages "file already
exists" and "file already closed": two messages differ and the lengths differ. -/
theorem EqualErrorGroup_reports_witness :
    ["file already exists", "file already closed"] ≠ [] ∧
    EqualErrorGroup (Join [some (.errorString (some 1) "file already closed"),
        some (.errorString (some 2) "invalid argument"),
        some (.errorString (some 3) "file already exists")])
        ["file already exists", "file already closed"]
      = some [.messageNotEqual "file already exists" "file already closed",
          .messageNotEqual "file already closed" "invalid argument",
          .shouldHaveItems 2 3] ∧
    ∃ fs, EqualErrorGroup (Join [some (.errorString (some 1) "file already closed"),
        some (.errorString (some 2) "invalid argument"),
        some (.errorString (some 3) "file already exists")])
        ["file already exists", "file already closed"] = some fs ∧
      fs.length = (mismatches (Collection (Join [some (.errorString (some 1) "file already closed"),
        some (.errorString (some 2) "invalid argument"),
        some (.errorString (some 3) "file already exists")]))
        ["file already exists", "file already closed"]).length
        + (if (Collection (Join [some (.errorString (some 1) "file already closed"),
        some (.errorString (some 2) "invalid argument"),
        some (.errorString (some 3) "file already exists")])).length
          ≠ ["file already exists", "file already closed"].length then 1 else 0) ∧
      (fs = [] ↔ messages (Collection (Join [some (.errorString (some 1) "file already closed"),
        some (.errorString (some 2) "invalid argument"),
        some (.errorString (some 3) "file already exists")]))
          = some ["file already exists", "file already closed"]) :=
  ⟨by decide, by decide, EqualErrorGroup_reports _ _ (by decide)⟩

/-- C17: with an empty list of expected messages, `EqualErrorGroup` reports what
`assert.NoError` reports for the error itself, whatever `Collection(err)` holds: nothing for a
nil error and exactly one failure for a non-nil error. -/
theorem EqualErrorGroup_empty (err : error) :
    EqualErrorGroup err [] = some (assert.NoError err) ∧
    (assert.NoError err ≠ [] ↔ err ≠ none) ∧
    (assert.NoError err).length = (if err.isSome then 1 else 0) ∧
    EqualErrorGroup (some (.custom "boom" [])) [] = some [.unexpectedError "boom"] ∧
    Collection (some (.custom "boom" [])) = [] := by
  refine ⟨rfl, ?_, ?_, rfl, rfl⟩
  · cases err <;> simp [assert.NoError]
  · cases err <;> simp [assert.NoError]

/-! ## Type extraction: the equation of the standard library -/

/-- `errors.As` on a result of `fmt.Errorf("%s%w", pfx, x)`: the result itself when its type is
assignable, otherwise what `errors.As` finds in `x`. -/
theorem errors.As_Errorf (assignable : Err → Bool) (pfx : String) (x : error) :
    errors.As assignable (some (Errorf pfx x))
      = if assignable (Errorf pfx x) then some (Errorf pfx x) else errors.As assignable x := by
  cases x with
  | none => simp [Errorf, errors.As, errors.as]
  | some e => simp [Errorf, errors.As, errors.as]

theorem viewResult_asView (assignable : Err → Bool) (pfx : String) (x : error) :
    viewResult assignable (asView assignable pfx x (errors.As assignable x))
      (some (Errorf pfx x)) :=
  ⟨rfl, errors.As_Errorf assignable pfx x⟩

theorem viewResult_map (assignable : Err → Bool) (pfx : String)
    {l : List (Err × Option Err)} {c : List error}
    (h : List.Forall₂ (viewResult assignable) l c) :
    List.Forall₂ (viewResult assignable)
      (l.map (fun vr => asView assignable pfx (some vr.1) vr.2))
      (c.map (fun x => some (Errorf pfx x))) := by
  rw [List.forall₂_map_left_iff, List.forall₂_map_right_iff]
  refine h.imp ?_
  rintro vr x ⟨hx, hr⟩
  subst hx
  rw [← hr]
  exact viewResult_asView assignable pfx (some vr.1)

theorem groupError.rawViewsAs_eq (assignable : Err → Bool) (pfx : String) (c : List error) :
    List.Forall₂ (viewResult assignable) (groupError.rawViewsAs assignable pfx c)
      (c.map (fun x => some (Errorf pfx x))) := by
  induction c with
  | nil => exact List.Forall₂.nil
  | cons x t ih =>
    rw [groupError.rawViewsAs]
    exact List.Forall₂.cons (viewResult_asView assignable pfx x) ih

mutual
/-- The list `groupError.viewsAs` holds the elements of `g.Collection()`, in order, each with
the result of `errors.As` on it. -/
theorem groupError.viewsAs_eq (assignable : Err → Bool) (pfx : String) :
    ∀ errs : List (Option Err),
      List.Forall₂ (viewResult assignable) (groupError.viewsAs assignable pfx errs)
        (groupError.Collection pfx errs)
  | [] => List.Forall₂.nil
  | err :: rest => by
    rw [groupError.viewsAs, groupError.Collection]
    exact List.rel_append (groupError.viewsAsStep_eq assignable pfx err)
      (groupError.viewsAs_eq assignable pfx rest)
theorem groupError.viewsAsStep_eq (assignable : Err → Bool) (pfx : String) :
    ∀ err : Option Err,
      List.Forall₂ (viewResult assignable) (groupError.viewsAsStep assignable pfx err)
        (groupError.collectionStep pfx err)
  | none => by
    rw [groupError.viewsAsStep, groupError.collectionStep]
    exact List.Forall₂.cons (viewResult_asView assignable pfx none) List.Forall₂.nil
  | some (.groupError q fs) => by
    rw [groupError.viewsAsStep, groupError.collectionStep, Err.assertCollection]
    exact viewResult_map assignable pfx (groupError.viewsAs_eq assignable q fs)
  | some (.custom m c) => by
    rw [groupError.viewsAsStep, groupError.collectionStep, Err.assertCollection]
    exact groupError.rawViewsAs_eq assignable pfx c
  | some (.errorString a s) => by
    rw [groupError.viewsAsStep, groupError.collectionStep, Err.assertCollection]
    exact List.Forall₂.cons (viewResult_asView assignable pfx (some (.errorString a s)))
      List.Forall₂.nil
  | some (.wrapError m x) => by
    rw [groupError.viewsAsStep, groupError.collectionStep, Err.assertCollection]
    exact List.Forall₂.cons (viewResult_asView assignable pfx (some (.wrapError m x)))
      List.Forall₂.nil
  | some (.wrapErrorNil m) => by
    rw [groupError.viewsAsStep, groupError.collectionStep, Err.assertCollection]
    exact List.Forall₂.cons (viewResult_asView assignable pfx (some (.wrapErrorNil m)))
      List.Forall₂.nil
end

theorem firstResult_eq_findSome (assignable : Err → Bool)
    {l : List (Err × Option Err)} {c : List error}
    (h : List.Forall₂ (viewResult assignable) l c) :
    firstResult l = c.findSome? (errors.As assignable) := by
  induction h with
  | nil => rfl
  | cons hab _ ih =>
    rw [firstResult] at ih
    rw [firstResult, List.findSome?_cons, List.findSome?_cons, hab.2, ih]

/-- The loop of `errors.As` on a `*groupError`, as the standard library writes it: the type
test, the method `As`, then every element of `g.Unwrap() = g.Collection()`. -/
theorem errors.as_groupError (assignable : Err → Bool) (pfx : String) (errs : List error) :
    errors.as assignable (.groupError pfx errs)
      = if assignable (.groupError pfx errs) then some (.groupError pfx errs)
        else
          match groupError.As assignable errs with
          | some v => some v
          | none => (groupError.Collection pfx errs).findSome? (errors.As assignable) := by
  rw [errors.as, firstResult_eq_findSome assignable (groupError.viewsAs_eq assignable pfx errs)]

/-! ## Type extraction on the unflattened tree -/

mutual
/-- When `*fmt.wrapError` is not assignable to the target type and the method `As` finds
nothing in built members, `errors.As` finds nothing in the elements of `g.Unwrap()`. -/
theorem groupError.viewsAs_none (assignable : Err → Bool)
    (hw : ∀ m x, assignable (.wrapError m x) = false) (pfx : String) :
    ∀ errs : List (Option Err), builtAll errs = true →
      groupError.As assignable errs = none →
      ∀ vr ∈ groupError.viewsAs assignable pfx errs, vr.2 = none
  | [], _, _, vr, hvr => by simp [groupError.viewsAs] at hvr
  | none :: _, h, _, _, _ => by simp [builtAll] at h
  | some e :: rest, h, hn, vr, hvr => by
    simp only [builtAll, Bool.and_eq_true] at h
    rw [groupError.As, errors.As] at hn
    cases he : errors.as assignable e with
    | some v => simp [he] at hn
    | none =>
      simp only [he] at hn
      rw [groupError.viewsAs, List.mem_append] at hvr
      rcases hvr with hvr | hvr
      · exact groupError.viewsAsStep_none assignable hw pfx e h.1 he vr hvr
      · exact groupError.viewsAs_none assignable hw pfx rest h.2 hn vr hvr
theorem groupError.viewsAsStep_none (assignable : Err → Bool)
    (hw : ∀ m x, assignable (.wrapError m x) = false) (pfx : String) :
    ∀ e : Err, e.built = true → errors.as assignable e = none →
      ∀ vr ∈ groupError.viewsAsStep assignable pfx (some e), vr.2 = none
  | .errorString a s, _, hn, vr, hvr => by
    simp only [groupError.viewsAsStep, List.mem_singleton] at hvr
    subst hvr
    simp [asView, Errorf, hw, hn]
  | .wrapError m x, _, hn, vr, hvr => by
    simp only [groupError.viewsAsStep, List.mem_singleton] at hvr
    subst hvr
    simp [asView, Errorf, hw, hn]
  | .wrapErrorNil m, _, hn, vr, hvr => by
    simp only [groupError.viewsAsStep, List.mem_singleton] at hvr
    subst hvr
    simp [asView, Errorf, hw, hn]
  | .custom _ _, h, _, _, _ => by simp [Err.built] at h
  | .groupError q fs, h, hn, vr, hvr => by
    simp only [Err.built, Bool.and_eq_true] at h
    rw [errors.as] at hn
    split at hn
    · cases hn
    · cases hAs : groupError.As assignable fs with
      | some v => simp [hAs] at hn
      | none =>
        simp only [groupError.viewsAsStep, List.mem_map] at hvr
        obtain ⟨ur, hur, rfl⟩ := hvr
        have := groupError.viewsAs_none assignable hw q fs h.2 hAs ur hur
        simp [asView, Errorf, hw, this]
end

mutual
/-- When `*fmt.wrapError` is not assignable to the target type, the method `As` on built
members is the reference search. -/
theorem groupError.As_eq_firstMatch (assignable : Err → Bool)
    (hw : ∀ m x, assignable (.wrapError m x) = false) :
    ∀ errs : List (Option Err), builtAll errs = true →
      groupError.As assignable errs = firstMatch assignable errs
  | [], _ => rfl
  | none :: _, h => by simp [builtAll] at h
  | some e :: rest, h => by
    simp only [builtAll, Bool.and_eq_true] at h
    rw [groupError.As, errors.As, firstMatch, errors.as_eq_node assignable hw e h.1,
      groupError.As_eq_firstMatch assignable hw rest h.2]
theorem errors.as_eq_node (assignable : Err → Bool)
    (hw : ∀ m x, assignable (.wrapError m x) = false) :
    ∀ e : Err, e.built = true → errors.as assignable e = firstMatch.node assignable e
  | .errorString _ _, _ => by rw [firstMatch.node]
  | .wrapError _ _, _ => by rw [firstMatch.node]
  | .wrapErrorNil _, _ => by rw [firstMatch.node]
  | .custom _ _, h => by simp [Err.built] at h
  | .groupError q fs, h => by
    simp only [Err.built, Bool.and_eq_true] at h
    rw [errors.as, firstMatch.node, ← groupError.As_eq_firstMatch assignable hw fs h.2]
    split
    · rfl
    · cases hAs : groupError.As assignable fs with
      | some v => rfl
      | none =>
        show firstResult _ = none
        rw [firstResult, List.findSome?_eq_none_iff]
        exact groupError.viewsAs_none assignable hw q fs h.2 hAs
end

mutual
/-- What `errors.As` stores has a type that is assignable to the target type. -/
theorem errors.as_assignable (assignable : Err → Bool) :
    ∀ (e v : Err), errors.as assignable e = some v → assignable v = true
  | .errorString a s, v, h => by
    rw [errors.as] at h
    split at h
    · cases h
      assumption
    · cases h
  | .wrapError m x, v, h => by
    rw [errors.as] at h
    split at h
    · cases h
      assumption
    · exact errors.as_assignable assignable x v h
  | .wrapErrorNil m, v, h => by
    rw [errors.as] at h
    split at h
    · cases h
      assumption
    · cases h
  | .custom m c, v, h => by
    rw [errors.as] at h
    split at h
    · cases h
      assumption
    · cases h
  | .groupError q fs, v, h => by
    rw [errors.as] at h
    split at h
    · cases h
      assumption
    · cases hAs : groupError.As assignable fs with
      | some u =>
        simp only [hAs, Option.some.injEq] at h
        subst h
        exact groupError.As_assignable assignable fs u hAs
      | none =>
        simp only [hAs, firstResult] at h
        obtain ⟨vr, hvr, hv⟩ := List.exists_of_findSome?_eq_some h
        exact groupError.viewsAs_assignable assignable q fs vr hvr v hv
theorem groupError.As_assignable (assignable : Err → Bool) :
    ∀ (errs : List (Option Err)) (v : Err),
      groupError.As assignable errs = some v → assignable v = true
  | [], v, h => by simp [groupError.As] at h
  | none :: rest, v, h => by
    simp only [groupError.As, errors.As] at h
    exact groupError.As_assignable assignable rest v h
  | some e :: rest, v, h => by
    rw [groupError.As, errors.As] at h
    cases he : errors.as assignable e with
    | some u =>
      simp only [he, Option.some.injEq] at h
      subst h
      exact errors.as_assignable assignable e u he
    | none =>
      simp only [he] at h
      exact groupError.As_assignable assignable rest v h
theorem groupError.viewsAs_assignable (assignable : Err → Bool) (pfx : String) :
    ∀ (errs : List (Option Err)), ∀ vr ∈ groupError.viewsAs assignable pfx errs,
      ∀ v, vr.2 = some v → assignable v = true
  | [], vr, hvr, _, _ => by simp [groupError.viewsAs] at hvr
  | err :: rest, vr, hvr, v, hv => by
    rw [groupError.viewsAs, List.mem_append] at hvr
    rcases hvr with hvr | hvr
    · exact groupError.viewsAsStep_assignable assignable pfx err vr hvr v hv
    · exact groupError.viewsAs_assignable assignable pfx rest vr hvr v hv
theorem groupError.viewsAsStep_assignable (assignable : Err → Bool) (pfx : String) :
    ∀ (err : Option Err), ∀ vr ∈ groupError.viewsAsStep assignable pfx err,
      ∀ v, vr.2 = some v → assignable v = true
  | none, vr, hvr, v, hv => by
    simp only [groupError.viewsAsStep, List.mem_singleton] at hvr
    subst hvr
    simp only [asView] at hv
    split at hv
    · cases hv
      assumption
    · cases hv
  | some (.groupError q fs), vr, hvr, v, hv => by
    simp only [groupError.viewsAsStep, List.mem_map] at hvr
    obtain ⟨ur, hur, rfl⟩ := hvr
    simp only [asView] at hv
    split at hv
    · cases hv
      assumption
    · exact groupError.viewsAs_assignable assignable q fs ur hur v hv
  | some (.custom m c), vr, hvr, v, hv => by
    rw [groupError.viewsAsStep] at hvr
    exact groupError.rawViewsAs_assignable assignable pfx c vr hvr v hv
  | some (.errorString a s), vr, hvr, v, hv => by
    simp only [groupError.viewsAsStep, List.mem_singleton] at hvr
    subst hvr
    simp only [asView] at hv
    split at hv
    · cases hv
      assumption
    · exact errors.as_assignable assignable _ v hv
  | some (.wrapError m x), vr, hvr, v, hv => by
    simp only [groupError.viewsAsStep, List.mem_singleton] at hvr
    subst hvr
    simp only [asView] at hv
    split at hv
    · cases hv
      assumption
    · exact errors.as_assignable assignable _ v hv
  | some (.wrapErrorNil m), vr, hvr, v, hv => by
    simp only [groupError.viewsAsStep, List.mem_singleton] at hvr
    subst hvr
    simp only [asView] at hv
    split at hv
    · cases hv
      assumption
    · exact errors.as_assignable assignable _ v hv
theorem groupError.rawViewsAs_assignable (assignable : Err → Bool) (pfx : String) :
    ∀ (c : List (Option Err)), ∀ vr ∈ groupError.rawViewsAs assignable pfx c,
      ∀ v, vr.2 = some v → assignable v = true
  | [], vr, hvr, _, _ => by simp [groupError.rawViewsAs] at hvr
  | none :: rest, vr, hvr, v, hv => by
    rw [groupError.rawViewsAs, List.mem_cons] at hvr
    rcases hvr with rfl | hvr
    · simp only [asView, errors.As] at hv
      split at hv
      · cases hv
        assumption
      · cases hv
    · exact groupError.rawViewsAs_assignable assignable pfx rest vr hvr v hv
  | some e :: rest, vr, hvr, v, hv => by
    rw [groupError.rawViewsAs, List.mem_cons] at hvr
    rcases hvr with rfl | hvr
    · simp only [asView, errors.As] at hv
      split at hv
      · cases hv
        assumption
      · exact errors.as_assignable assignable e v hv
    · exact groupError.rawViewsAs_assignable assignable pfx rest vr hvr v hv
end

/-- C14, as stated, fails for a target type to which the type of the prefixed views is
assignable. For the target type `interface{ Unwrap() error }` and
`g = Prefix("p: ", Prefix("q: ", a))`, no member of `g` at any depth has that type and the
reference search finds nothing, but `g.As(target)` returns true and stores the view
`fmt.Errorf("%s%w", "q: ", a)`, which `errors.As` finds in the `Unwrap()` of the inner group. -/
theorem As_first_match_counterexample :
    Prefix "p: " [Prefix "q: " [some (.errorString (some 1) "a")]]
      = some (.groupError "p: " [some (.groupError "q: " [some (.errorString (some 1) "a")])]) ∧
    (Err.groupError "p: "
      [some (.groupError "q: " [some (.errorString (some 1) "a")])]).built = true ∧
    groupError.As unwrapper [some (.groupError "q: " [some (.errorString (some 1) "a")])]
      = some (.wrapError "q: a" (.errorString (some 1) "a")) ∧
    firstMatch unwrapper [some (.groupError "q: " [some (.errorString (some 1) "a")])]
      = none :=
  ⟨rfl, rfl, rfl, rfl⟩

/-- C14 (amended): for every group made by `Prefix` or `Join` from leaf errors and such groups,
and every target type to which `*fmt.wrapError`, the type of the prefixed views, is not
assignable, `g.As(target)` is the reference search: it returns true if and only if the search
through the members, depth first through nested groups, finds a match, and then it stores that
first match, an error whose type is assignable to the target type; when it returns false it
stores nothing. -/
theorem As_eq_first_match (assignable : Err → Bool) (pfx : String) (errs : List error)
    (hw : ∀ m x, assignable (.wrapError m x) = false)
    (h : (Err.groupError pfx errs).built = true) :
    groupError.As assignable errs = firstMatch assignable errs ∧
    ∀ v, groupError.As assignable errs = some v → assignable v = true := by
  simp only [Err.built, Bool.and_eq_true] at h
  exact ⟨groupError.As_eq_firstMatch assignable hw errs h.2,
    groupError.As_assignable assignable errs⟩

/-- C14 (amended) at `Join(t, addrErr)` for the tree `t` of `Test_groupError_Unwrap` without
the path error: the target receives the address error itself, with its message unchanged. -/
theorem As_eq_first_match_witness :
    (∀ m x, addrErrorType (.wrapError m x) = false) ∧
    (Err.groupError "" [some unwrapTest,
      some (.errorString (some 4) "address 010203: invalid IP address")]).built = true ∧
    groupError.As addrErrorType [some unwrapTest,
      some (.errorString (some 4) "address 010203: invalid IP address")]
      = some (.errorString (some 4) "address 010203: invalid IP address") ∧
    groupError.As addrErrorType [some unwrapTest] = none :=
  ⟨fun _ _ => rfl, rfl,
    (As_eq_first_match addrErrorType "" [some unwrapTest,
      some (.errorString (some 4) "address 010203: invalid IP address")]
      (fun _ _ => rfl) rfl).1.trans rfl, rfl⟩

/-! ## Termination -/

theorem depth_le_depthAll {errs : List error} {e : Err} (h : some e ∈ errs) :
    e.depth ≤ depthAll errs := by
  induction errs with
  | nil => simp at h
  | cons x t ih =>
    cases x with
    | none =>
      rw [depthAll]
      exact ih (by simpa using h)
    | some f =>
      rw [depthAll]
      rcases List.mem_cons.1 h with h | h
      · cases h
        exact le_max_left _ _
      · exact le_trans (ih h) (le_max_right _ _)

theorem Errorf_depth (pfx : String) (x : error) : (Errorf pfx x).depth = 0 := by
  cases x <;> rfl

theorem concatResults_map_Collection (f : error → Option (List error)) (c : List error)
    (h : ∀ x ∈ c, f x = some (Collection x)) :
    concatResults (c.map f) = some (CollectionAll c) := by
  induction c with
  | nil => rfl
  | cons x t ih =>
    rw [List.map_cons, h x (List.mem_cons_self _ _), concatResults,
      ih (fun y hy => h y (List.mem_cons_of_mem _ hy)), CollectionAll]
    rfl

theorem concatResults_map_step (pfx : String) (f : error → Option (List error))
    (errs : List error) (h : ∀ x ∈ errs, f x = some (groupError.collectionStep pfx x)) :
    concatResults (errs.map f) = some (groupError.Collection pfx errs) := by
  induction errs with
  | nil => rfl
  | cons x t ih =>
    rw [List.map_cons, h x (List.mem_cons_self _ _), concatResults,
      ih (fun y hy => h y (List.mem_cons_of_mem _ hy)), groupError.Collection]
    rfl

/-- With more fuel than the nesting depth the type assertion and the method call return. -/
theorem assertCollectionFuel_eq :
    ∀ (n : Nat) (e : Err), e.depth < n → assertCollectionFuel n e = some e.assertCollection
  | 0, _, h => absurd h (Nat.not_lt_zero _)
  | _ + 1, .errorString _ _, _ => rfl
  | _ + 1, .wrapError _ _, _ => rfl
  | _ + 1, .wrapErrorNil _, _ => rfl
  | _ + 1, .custom _ _, _ => rfl
  | n + 1, .groupError pfx errs, h => by
    rw [Err.depth] at h
    rw [assertCollectionFuel, Err.assertCollection, concatResults_map_step pfx]
    · rfl
    · intro x hx
      cases x with
      | none => rfl
      | some e =>
        have hd : e.depth < n := by
          have := depth_le_depthAll hx
          omega
        simp only [assertCollectionFuel_eq n e hd, groupError.collectionStep]
        cases e.assertCollection <;> rfl

/-- With fuel above the nesting depth plus one the function `Collection` returns. -/
theorem CollectionFuel_eq :
    ∀ (n : Nat) (x : error), error.depth x + 1 < n → CollectionFuel n x = some (Collection x)
  | 0, _, h => absurd h (Nat.not_lt_zero _)
  | _ + 1, none, _ => rfl
  | n + 1, some e, h => by
    rw [error.depth] at h
    rw [CollectionFuel, assertCollectionFuel_eq n e (by omega), Collection_eq]
    cases e with
    | errorString a s => rfl
    | wrapError m y => rfl
    | wrapErrorNil m => rfl
    | custom m c =>
      simp only [Err.assertCollection]
      apply concatResults_map_Collection
      intro y hy
      apply CollectionFuel_eq n y
      simp only [Err.depth] at h
      cases y with
      | none =>
        simp only [error.depth]
        omega
      | some f =>
        have := depth_le_depthAll hy
        simp only [error.depth]
        omega
    | groupError pfx errs =>
      simp only [Err.assertCollection]
      apply concatResults_map_Collection
      intro y hy
      apply CollectionFuel_eq n y
      obtain ⟨z, rfl⟩ := groupError.mem_Collection hy
      simp only [Err.depth] at h
      simp only [error.depth, Errorf_depth]
      omega

/-- C18: on every finite error tree the operations return without failure. With fuel above
the nesting depth plus one, the recursion of the function `Collection` and of the method
`Collection` ends and gives the flattened sequence. For a group, `Error` never calls `Error()`
on a nil element and returns the joined messages, and `errors.Is` and `errors.As`, with the
methods `Is` and `As`, are total functions that satisfy the equations of their source: the
method, then the loop over the finite list `g.Unwrap()`. -/
theorem operations_total (e : Err) (fuel : Nat) (h : e.depth + 1 < fuel) :
    CollectionFuel fuel (some e) = some (Collection (some e)) ∧
    CollectionFuel fuel none = some [] ∧
    assertCollectionFuel fuel e = some e.assertCollection ∧
    (∀ pfx errs, e = .groupError pfx errs →
      (∃ ms, messages (groupError.Collection pfx errs) = some ms ∧
        e.Error = "\n".intercalate ms) ∧
      (∀ target : Nat, errors.is e target
        = (groupError.Is errs target
            || (groupError.Collection pfx errs).any (fun x => errors.Is x target))) ∧
      (∀ assignable : Err → Bool, errors.as assignable e
        = if assignable e then some e
          else
            match groupError.As assignable errs with
            | some v => some v
            | none => (groupError.Collection pfx errs).findSome? (errors.As assignable))) := by
  refine ⟨CollectionFuel_eq fuel (some e) h, ?_, assertCollectionFuel_eq fuel e (by omega), ?_⟩
  · cases fuel with
    | zero => omega
    | succ n => rfl
  · rintro pfx errs rfl
    refine ⟨⟨_, groupError.messages_Collection pfx errs, by rw [Err.Error]⟩, ?_, ?_⟩
    · intro target
      rw [errors.is, groupError.unwrapIs_eq pfx target errs]
    · intro assignable
      rw [errors.as,
        firstResult_eq_findSome assignable (groupError.viewsAs_eq assignable pfx errs)]

/-- C18 at the tree of `Test_groupError_Unwrap` without the path error, of depth 3, with
fuel 5: the recursion returns the three flattened messages. -/
theorem operations_total_witness :
    unwrapTest.depth + 1 < 5 ∧
    CollectionFuel 5 (some unwrapTest) = some (Collection (some unwrapTest)) ∧
    messages (Collection (some unwrapTest))
      = some ["errors: my group: some errors: EOF",
          "errors: my group: some errors: multiple Read calls return no data or error",
          "errors: my group: unexpected EOF"] :=
  ⟨by decide, (operations_total unwrapTest 5 (by decide)).1, by decide⟩

/-! ## Flattening and concatenation of the inputs of the builder -/

theorem filterNonNil_append (a b : List error) :
    filterNonNil (a ++ b) = filterNonNil a ++ filterNonNil b := by
  induction a with
  | nil => rfl
  | cons x t ih => cases x <;> simp [filterNonNil, ih]

theorem groupError.Collection_append (pfx : String) (a b : List error) :
    groupError.Collection pfx (a ++ b)
      = groupError.Collection pfx a ++ groupError.Collection pfx b := by
  induction a with
  | nil => rfl
  | cons x t ih => simp [groupError.Collection, ih]

/-- Flattening the result of `Prefix` is the method `Collection` on the non-nil inputs, also
when the result is nil. -/
theorem Collection_Prefix_eq (pfx : String) (errs : List error) :
    Collection (Prefix pfx errs) = groupError.Collection pfx (filterNonNil errs) := by
  unfold Prefix
  by_cases hc : countNonNil errs = 0
  · have hf : filterNonNil errs = [] := by
      rw [filterNonNil_eq_filter, List.filter_eq_nil_iff]
      intro x hx
      simp [(countNonNil_eq_zero_iff errs).1 hc x hx]
    rw [if_pos hc, hf]
    rfl
  · rw [if_neg hc, Collection, Collection.nonNil]

/-- C21: for every prefix and all sequences `E1`, `E2` of errors, nil or not,
`Collection(Prefix(p, E1 ++ E2))` is `Collection(Prefix(p, E1...))` followed by
`Collection(Prefix(p, E2...))`, a nil result giving the empty sequence; no element is nil, and
the messages of the first are the messages of the second followed by those of the third. So a
nil input, inserted or removed anywhere, does not change the flattened messages, as for
`Prefix("my group: ", error1, nil, error2)` of the example. -/
theorem Collection_Prefix_append (pfx : String) (E1 E2 : List error) :
    Collection (Prefix pfx (E1 ++ E2))
      = Collection (Prefix pfx E1) ++ Collection (Prefix pfx E2) ∧
    (∃ m1 m2, messages (Collection (Prefix pfx E1)) = some m1 ∧
      messages (Collection (Prefix pfx E2)) = some m2 ∧
      messages (Collection (Prefix pfx (E1 ++ E2))) = some (m1 ++ m2)) ∧
    Collection (Prefix pfx (E1 ++ none :: E2)) = Collection (Prefix pfx (E1 ++ E2)) ∧
    messages (Collection (Prefix pfx (E1 ++ none :: E2)))
      = messages (Collection (Prefix pfx (E1 ++ E2))) ∧
    messages (Collection (Prefix "my group: " [some (.errorString (some 1) "error1"), none,
        some (.errorString (some 2) "error2")]))
      = some ["my group: error1", "my group: error2"] := by
  have happ : Collection (Prefix pfx (E1 ++ E2))
      = Collection (Prefix pfx E1) ++ Collection (Prefix pfx E2) := by
    rw [Collection_Prefix_eq, Collection_Prefix_eq, Collection_Prefix_eq, filterNonNil_append,
      groupError.Collection_append]
  have hnil : Collection (Prefix pfx (E1 ++ none :: E2))
      = Collection (Prefix pfx (E1 ++ E2)) := by
    rw [Collection_Prefix_eq, Collection_Prefix_eq, filterNonNil_append, filterNonNil_append,
      filterNonNil]
  refine ⟨happ, ⟨groupError.lines pfx (filterNonNil E1), groupError.lines pfx (filterNonNil E2),
    ?_, ?_, ?_⟩, hnil, by rw [hnil], by decide⟩
  · rw [Collection_Prefix_eq, groupError.messages_Collection]
  · rw [Collection_Prefix_eq, groupError.messages_Collection]
  · rw [happ]
    exact messages_append
      (by rw [Collection_Prefix_eq, groupError.messages_Collection])
      (by rw [Collection_Prefix_eq, groupError.messages_Collection])

end grouperror
